import Mathlib

/-!
# Verification of the `buoyancy` float-placement core

A shallow embedding of the CSS 2.1 §9.5.1 float-placement engine
(`src/exclusions.rs`) together with its quickcheck driver (`src/test.rs`),
and proofs of the specified properties of `Exclusions::new`,
`Exclusions::place`, `Exclusions::exclude`, `Exclusions::split` and the
driver loop.

Lengths (`Au`, app units) are modelled as unbounded integers (`Int`); the
source's `i32` arithmetic is assumed in range (the spec leaves overflow
undefined).  Operations that `panic!`/`expect` in the source are modelled as
returning `none`.
-/

namespace Buoyancy

/-- `MAX_AU`: the sentinel length (`i32::MAX`). -/
def MAX_AU : Int := 2147483647

/-- A horizontal band of the silhouette (`struct Band` in `exclusions.rs`). -/
structure Band where
  left : Int
  right : Int
  length : Int
deriving DecidableEq, Repr

/-- `enum Side`. -/
inductive Side where
  | Left
  | Right
deriving DecidableEq, Repr

/-- `Band::available_size`. -/
def Band.available_size (b : Band) (inline_size : Int) : Int :=
  inline_size + b.left + b.right

/-- `Band::get`. -/
def Band.get (b : Band) (side : Side) : Int :=
  match side with
  | Side.Left => b.left
  | Side.Right => b.right

/-- `Band::set`. -/
def Band.set (b : Band) (side : Side) (inline_size : Int) : Band :=
  match side with
  | Side.Left => ⟨inline_size, b.right, b.length⟩
  | Side.Right => ⟨b.left, inline_size, b.length⟩

/-- `struct Point` (a logical point). -/
structure Point where
  inline : Int
  block : Int
deriving DecidableEq, Repr

/-- `struct Size` (a logical size). -/
structure Size where
  inline : Int
  block : Int
deriving DecidableEq, Repr

/-- `struct Placement`. -/
structure Placement where
  origin : Point
  available_inline_size : Int
deriving DecidableEq, Repr

/-- Modelled from the spec: the repository's splay-tree ordered map (`map.rs`,
spec §4.1) is not under `src/`; only its callers are.  We model the map by its
key-to-value content, as a key-sorted association list: §4.1 specifies that
splaying re-shapes the tree but never alters which value is bound to which
key, so every content-level behaviour of the callers is captured. -/
abbrev SplayMap := List (Int × Band)

namespace SplayMap

/-- Modelled from the spec (§4.1 `search`/`get_with`): returns the entry on
which the monotone comparator answers `Equal` (the first such entry of the
sorted list; in every caller at most one entry can answer `Equal`). -/
def get_with (cmp : Int → Band → Ordering) (m : SplayMap) : Option (Int × Band) :=
  m.find? (fun kb => match cmp kb.1 kb.2 with | Ordering.eq => true | _ => false)

/-- Modelled from the spec (§4.1 `search_lower_bound` as consumed by §4.3.2):
the normative description of the consumer is "the first band that fits *or*
the sentinel if none fits", i.e. the first entry (in ascending key order) on
which the comparator does not answer `Greater`; scenarios S2-S5 of §8 pin
this reading down. -/
def lower_bound_with (cmp : Int → Band → Ordering) (m : SplayMap) : Option (Int × Band) :=
  m.find? (fun kb => match cmp kb.1 kb.2 with | Ordering.gt => false | _ => true)

/-- Modelled from the spec (§4.1 `get`): exact-key lookup. -/
def get (m : SplayMap) (k : Int) : Option Band :=
  (m.find? (fun kb => kb.1 == k)).map Prod.snd

/-- Modelled from the spec (§4.1 `insert`): inserts or overwrites, keeping
the list sorted by key. -/
def insert (k : Int) (v : Band) : SplayMap → SplayMap
  | [] => [(k, v)]
  | kb :: rest =>
    if k < kb.1 then (k, v) :: kb :: rest
    else if k = kb.1 then (k, v) :: rest
    else kb :: insert k v rest

/-- Modelled from the spec (§4.1 `remove`): removes the entry bound to `k`. -/
def remove (k : Int) (m : SplayMap) : SplayMap :=
  m.filter (fun kb => decide (kb.1 ≠ k))

end SplayMap

/-- `struct Exclusions`: the zone state. -/
structure Exclusions where
  bands : SplayMap
  inline_size : Int
deriving DecidableEq, Repr

/-- `Exclusions::new`. -/
def Exclusions.new (inline_size : Int) : Exclusions :=
  ⟨[(0, ⟨0, 0, MAX_AU⟩)], inline_size⟩

/-- `fn compare_inline_size` (the band-fit comparator of `place`). -/
def compare_inline_size (band_block_start : Int) (band : Band) (exclusion_size : Size)
    (inline_size : Int) : Ordering :=
  match compare exclusion_size.inline (band.available_size inline_size) with
  | Ordering.lt => Ordering.lt
  | Ordering.eq => Ordering.lt
  | Ordering.gt =>
    if band_block_start + band.length = MAX_AU then Ordering.eq else Ordering.gt

/-- `Exclusions::place`.  The source `expect`s/`unwrap`s on a missing band;
we model that as `none`.  The source takes `&mut self` only so the splay tree
may re-shape itself; at the content level the state is unchanged. -/
def Exclusions.place (self : Exclusions) (alignment : Side) (size : Size) : Option Placement :=
  match SplayMap.lower_bound_with
      (fun band_block_start band =>
        compare_inline_size band_block_start band size self.inline_size) self.bands with
  | none => none
  | some (block_position, _) =>
    match SplayMap.get self.bands block_position with
    | none => none
    | some band =>
      let inline_position :=
        match alignment with
        | Side.Left => -band.left
        | Side.Right => self.inline_size + band.right - size.inline
      some ⟨⟨inline_position, block_position⟩, band.available_size self.inline_size⟩

/-- `Exclusions::split`: splits the band spanning `block_position` in two at
that point (mutating the found band's length in place, then inserting the
lower piece).  `none` models the source's `expect` panic. -/
def Exclusions.split (self : Exclusions) (block_position : Int) : Option Exclusions :=
  match SplayMap.get_with
      (fun band_block_position band =>
        if block_position < band_block_position then Ordering.lt
        else if block_position ≥ band_block_position + band.length then Ordering.gt
        else Ordering.eq) self.bands with
  | none => none
  | some (upper_block_position, upper_band) =>
    let floor := upper_block_position + upper_band.length
    let bands1 := SplayMap.insert upper_block_position
      ⟨upper_band.left, upper_band.right, block_position - upper_block_position⟩ self.bands
    let lower_band : Band := ⟨upper_band.left, upper_band.right, floor - block_position⟩
    some ⟨SplayMap.insert block_position lower_band bands1, self.inline_size⟩

/-- The comparator of the upward walk inside `Exclusions::exclude`: locates
the band whose range contains `last_block_position - 1`. -/
def loopFound (last_block_position : Int) (block_position : Int) (band : Band) : Ordering :=
  if last_block_position ≤ block_position then Ordering.lt
  else if last_block_position > block_position + band.length then Ordering.gt
  else Ordering.eq

lemma get_with_spec {cmp : Int → Band → Ordering} {m : SplayMap} {kb : Int × Band}
    (h : SplayMap.get_with cmp m = some kb) : kb ∈ m ∧ cmp kb.1 kb.2 = Ordering.eq := by
  refine ⟨List.mem_of_find?_eq_some h, ?_⟩
  have h2 := List.find?_some h
  revert h2
  cases cmp kb.1 kb.2 <;> simp

lemma loopFound_eq_lt {lp k : Int} {b : Band} (h : loopFound lp k b = Ordering.eq) : k < lp := by
  unfold loopFound at h
  by_cases h1 : lp ≤ k
  · simp [h1] at h
  · exact lt_of_not_le h1

/-- The upward extend-and-merge walk inside `Exclusions::exclude` (the
`loop { ... }` of the source, with the same per-iteration order: find the
band above the cursor, extend it on `side`, merge it with the previously
visited band when the two have become identical, then delete the absorbed
entry).

The source's loop is unbounded; here it is driven by an explicit iteration
bound so that the recursion is structural.  The bound is harmless: every
iteration moves the cursor to a strictly earlier key already present in the
map and never adds keys, so the loop breaks after at most as many iterations
as there are bands, and `exclude` passes `bands.length + 1`
(`excludeLoop_spec` below establishes the break on every state `exclude` can
see). -/
def excludeLoop (side : Side) (size : Size) :
    Nat → SplayMap → Int → Option Band → SplayMap
  | 0, bands, _, _ => bands
  | fuel + 1, bands, last_block_position, last_band =>
    match SplayMap.get_with (loopFound last_block_position) bands with
    | none => bands
    | some (block_position, band) =>
      if -(band.get side) ≤ size.inline then
        let band1 := band.set side (-size.inline)
        match last_band with
        | some lb =>
          if band1.left = lb.left ∧ band1.right = lb.right then
            excludeLoop side size fuel
              (SplayMap.remove last_block_position
                (SplayMap.insert block_position
                  ⟨band1.left, band1.right, band1.length + lb.length⟩ bands))
              block_position (some ⟨band1.left, band1.right, band1.length + lb.length⟩)
          else
            excludeLoop side size fuel (SplayMap.insert block_position band1 bands)
              block_position (some band1)
        | none =>
          excludeLoop side size fuel (SplayMap.insert block_position band1 bands)
            block_position (some band1)
      else bands

/-- `Exclusions::exclude`. -/
def Exclusions.exclude (self : Exclusions) (side : Side) (size : Size) : Option Exclusions :=
  if size.inline = 0 ∨ size.block = 0 then some self
  else
    match self.split size.block with
    | none => none
    | some self1 =>
      some ⟨excludeLoop side size (self1.bands.length + 1) self1.bands size.block none,
            self1.inline_size⟩

/-- The source's `place` takes `&mut self` only because even read-only splay
searches re-shape the tree; at the key-to-value content level the state is
returned unchanged.  This is the state-transformer view of `place`. -/
def Exclusions.placeMut (self : Exclusions) (alignment : Side) (size : Size) :
    Option Placement × Exclusions :=
  (self.place alignment size, self)

/-- `struct Exclusion` of `test.rs`: one requested float. -/
structure Exclusion where
  side : Side
  size : Size
deriving DecidableEq, Repr

/-- `struct ExcludedArea` of `test.rs`: a requested float together with the
origin at which it settled. -/
structure ExcludedArea where
  exclusion : Exclusion
  origin : Point
deriving DecidableEq, Repr

/-- One iteration of the driver loop of `test.rs::place`: clamp the inline
size to the zone width, `place`, convert the placement to absolute extents,
`exclude`, and record the (clamped) exclusion with its origin. -/
def driverStep (inline_size : Int) (exclusions : Exclusions) (exclusion : Exclusion) :
    Option (ExcludedArea × Exclusions) :=
  let clamped : Size := ⟨min exclusion.size.inline inline_size, exclusion.size.block⟩
  match exclusions.place exclusion.side clamped with
  | none => none
  | some placement =>
    let origin := placement.origin
    let exclusion_inline_size :=
      match exclusion.side with
      | Side.Left => origin.inline + clamped.inline
      | Side.Right => inline_size - origin.inline
    match exclusions.exclude exclusion.side
        ⟨exclusion_inline_size, origin.block + clamped.block⟩ with
    | none => none
    | some exclusions' => some (⟨⟨exclusion.side, clamped⟩, origin⟩, exclusions')

/-- The driver `test.rs::place` (called `place_all` in the design document):
runs every exclusion through `place`/`exclude` and returns the placed areas
in order, together with the final zone state. -/
def place_all (inline_size : Int) : Exclusions → List Exclusion →
    Option (List ExcludedArea × Exclusions)
  | e, [] => some ([], e)
  | e, x :: rest =>
    match driverStep inline_size e x with
    | none => none
    | some (a, e') =>
      match place_all inline_size e' rest with
      | none => none
      | some (areas, efin) => some (a :: areas, efin)

/-- The rectangles `[origin, origin + size)` of two placed areas intersect in
both the inline and the block axis simultaneously. -/
def overlaps (a b : ExcludedArea) : Prop :=
  a.origin.inline < b.origin.inline + b.exclusion.size.inline ∧
  b.origin.inline < a.origin.inline + a.exclusion.size.inline ∧
  a.origin.block < b.origin.block + b.exclusion.size.block ∧
  b.origin.block < a.origin.block + a.exclusion.size.block

instance (a b : ExcludedArea) : Decidable (overlaps a b) := by
  unfold overlaps; infer_instance

/-! ## The band-store invariants -/

/-- `ContigSeg s e m`: the bands of `m` tile the block range `[s, e)`
contiguously, in order, each owning `[k, k + length)`. -/
def ContigSeg : Int → Int → SplayMap → Prop
  | s, e, [] => s = e
  | s, e, kb :: rest => kb.1 = s ∧ ContigSeg (s + kb.2.length) e rest

/-- Every band has strictly positive length. -/
def PosL (m : SplayMap) : Prop := ∀ kb ∈ m, 0 < kb.2.length

/-- Every band has non-positive `left` and `right` insets. -/
def NonposL (m : SplayMap) : Prop := ∀ kb ∈ m, kb.2.left ≤ 0 ∧ kb.2.right ≤ 0

/-- Inset magnitudes never increase from top to bottom: in list order both
`left` and `right` are non-decreasing (their magnitudes non-increasing). -/
def MonoL (m : SplayMap) : Prop :=
  m.Pairwise (fun x y => x.2.left ≤ y.2.left ∧ x.2.right ≤ y.2.right)

/-- The final (sentinel) band carries no insets. -/
def SentZ (m : SplayMap) : Prop := ∀ kb ∈ m.getLast?, kb.2.left = 0 ∧ kb.2.right = 0

/-- The full band-store invariant of a zone state. -/
def Inv (e : Exclusions) : Prop :=
  ContigSeg 0 MAX_AU e.bands ∧ PosL e.bands ∧ NonposL e.bands ∧ MonoL e.bands ∧ SentZ e.bands

/-- The band owning block position `y` (the first list entry whose range
contains `y`; under `ContigSeg`/`PosL` there is at most one). -/
def bandAt (m : SplayMap) (y : Int) : Option Band :=
  (m.find? (fun kb => decide (kb.1 ≤ y) && decide (y < kb.1 + kb.2.length))).map Prod.snd

/-- Pointwise effect of `exclude side ⟨m, _⟩` on the `(left, right)` insets
of the band at a covered block position. -/
def updLR (side : Side) (m : Int) (p : Int × Int) : Int × Int :=
  match side with
  | Side.Left => (min p.1 (-m), p.2)
  | Side.Right => (p.1, min p.2 (-m))

/-- States reachable from `Exclusions::new` by `place` and `exclude` calls
with non-negative sizes (`place` leaves the content-level state unchanged;
`exclude` must have returned normally). -/
inductive Reaches : Exclusions → Prop where
  | base (w : Int) : Reaches (Exclusions.new w)
  | place_step (e : Exclusions) (side : Side) (size : Size) (h : Reaches e) : Reaches e
  | exclude_step (e e' : Exclusions) (side : Side) (size : Size)
      (hi : 0 ≤ size.inline) (hb : 0 ≤ size.block)
      (h : Reaches e) (hx : e.exclude side size = some e') : Reaches e'

/-- Reachability by `exclude` calls, remembering the calls made. -/
inductive ReachesH : List (Side × Size) → Exclusions → Prop where
  | base (w : Int) : ReachesH [] (Exclusions.new w)
  | step (hist : List (Side × Size)) (e e' : Exclusions) (side : Side) (size : Size)
      (hi : 0 ≤ size.inline) (hb : 0 ≤ size.block)
      (hr : ReachesH hist e) (hx : e.exclude side size = some e') :
      ReachesH ((side, size) :: hist) e'

/-- The silhouette covers a placed area: everywhere from the zone top down to
the area's bottom edge, the inset on the area's side reaches at least to the
area's inner edge. -/
def Cover (w : Int) (e : Exclusions) (a : ExcludedArea) : Prop :=
  ∀ y b, 0 ≤ y → y < a.origin.block + a.exclusion.size.block → bandAt e.bands y = some b →
    (a.exclusion.side = Side.Left → a.origin.inline + a.exclusion.size.inline ≤ -b.left) ∧
    (a.exclusion.side = Side.Right → w + b.right ≤ a.origin.inline)

/-! ## Structural lemmas about the band store -/

lemma contigSeg_nil {s e : Int} (h : ContigSeg s e []) : s = e := h

lemma contigSeg_append {s m e : Int} {l1 l2 : SplayMap}
    (h1 : ContigSeg s m l1) (h2 : ContigSeg m e l2) : ContigSeg s e (l1 ++ l2) := by
  induction l1 generalizing s with
  | nil => rw [contigSeg_nil h1]; exact h2
  | cons kb t ih =>
    obtain ⟨hk, ht⟩ := h1
    exact ⟨hk, ih ht⟩

lemma contigSeg_append_split {s e : Int} {l1 l2 : SplayMap}
    (h : ContigSeg s e (l1 ++ l2)) : ∃ m, ContigSeg s m l1 ∧ ContigSeg m e l2 := by
  induction l1 generalizing s with
  | nil => exact ⟨s, rfl, h⟩
  | cons kb t ih =>
    obtain ⟨hk, ht⟩ := h
    obtain ⟨m, hm1, hm2⟩ := ih ht
    exact ⟨m, ⟨hk, hm1⟩, hm2⟩

lemma contigSeg_le {s e : Int} {l : SplayMap} (h : ContigSeg s e l) (hp : PosL l) : s ≤ e := by
  induction l generalizing s with
  | nil => exact le_of_eq (contigSeg_nil h)
  | cons kb t ih =>
    obtain ⟨hk, ht⟩ := h
    have h1 : 0 < kb.2.length := hp kb (List.mem_cons_self _ _)
    have h2 := ih ht (fun x hx => hp x (List.mem_cons_of_mem _ hx))
    omega

lemma contigSeg_mem_bounds {s e : Int} {l : SplayMap} (h : ContigSeg s e l) (hp : PosL l)
    {kb : Int × Band} (hm : kb ∈ l) : s ≤ kb.1 ∧ kb.1 + kb.2.length ≤ e := by
  induction l generalizing s with
  | nil => cases hm
  | cons x t ih =>
    obtain ⟨hk, ht⟩ := h
    have hpt : PosL t := fun y hy => hp y (List.mem_cons_of_mem _ hy)
    rcases List.mem_cons.mp hm with rfl | hmem
    · have := contigSeg_le ht hpt
      omega
    · have h1 : 0 < x.2.length := hp x (List.mem_cons_self _ _)
      have := ih ht hpt hmem
      omega

lemma posL_append {l1 l2 : SplayMap} : PosL (l1 ++ l2) ↔ PosL l1 ∧ PosL l2 := by
  unfold PosL
  constructor
  · exact fun h => ⟨fun kb hk => h kb (List.mem_append_left _ hk),
      fun kb hk => h kb (List.mem_append_right _ hk)⟩
  · rintro ⟨h1, h2⟩ kb hk
    rcases List.mem_append.mp hk with h | h
    · exact h1 kb h
    · exact h2 kb h

lemma nonposL_append {l1 l2 : SplayMap} : NonposL (l1 ++ l2) ↔ NonposL l1 ∧ NonposL l2 := by
  unfold NonposL
  constructor
  · exact fun h => ⟨fun kb hk => h kb (List.mem_append_left _ hk),
      fun kb hk => h kb (List.mem_append_right _ hk)⟩
  · rintro ⟨h1, h2⟩ kb hk
    rcases List.mem_append.mp hk with h | h
    · exact h1 kb h
    · exact h2 kb h

lemma posL_cons {kb : Int × Band} {l : SplayMap} :
    PosL (kb :: l) ↔ 0 < kb.2.length ∧ PosL l := by
  unfold PosL
  constructor
  · exact fun h => ⟨h kb (List.mem_cons_self _ _),
      fun x hx => h x (List.mem_cons_of_mem _ hx)⟩
  · rintro ⟨h1, h2⟩ x hx
    rcases List.mem_cons.mp hx with rfl | h
    · exact h1
    · exact h2 x h

lemma nonposL_cons {kb : Int × Band} {l : SplayMap} :
    NonposL (kb :: l) ↔ (kb.2.left ≤ 0 ∧ kb.2.right ≤ 0) ∧ NonposL l := by
  unfold NonposL
  constructor
  · exact fun h => ⟨h kb (List.mem_cons_self _ _),
      fun x hx => h x (List.mem_cons_of_mem _ hx)⟩
  · rintro ⟨h1, h2⟩ x hx
    rcases List.mem_cons.mp hx with rfl | h
    · exact h1
    · exact h2 x h

/-! ## Lemmas about `bandAt` -/

lemma bandAt_cons {kb : Int × Band} {t : SplayMap} {y : Int} :
    bandAt (kb :: t) y
      = if kb.1 ≤ y ∧ y < kb.1 + kb.2.length then some kb.2 else bandAt t y := by
  unfold bandAt
  by_cases h : kb.1 ≤ y ∧ y < kb.1 + kb.2.length
  · rw [if_pos h, List.find?_cons_of_pos]
    · rfl
    · simp only [Bool.and_eq_true, decide_eq_true_eq]
      exact h
  · rw [if_neg h, List.find?_cons_of_neg]
    simp only [Bool.and_eq_true, decide_eq_true_eq]
    exact h

lemma bandAt_nil {y : Int} : bandAt [] y = none := rfl

lemma bandAt_none_of_out {s e : Int} {l : SplayMap} (h : ContigSeg s e l) (hp : PosL l)
    {y : Int} (hy : y < s ∨ e ≤ y) : bandAt l y = none := by
  induction l generalizing s with
  | nil => rfl
  | cons kb t ih =>
    obtain ⟨hk, ht⟩ := h
    obtain ⟨hb, hpt⟩ := posL_cons.mp hp
    have hle := contigSeg_le ht hpt
    rw [bandAt_cons, if_neg]
    · refine ih ht hpt ?_
      omega
    · omega

lemma bandAt_some_of_in {s e : Int} {l : SplayMap} (h : ContigSeg s e l)
    {y : Int} (hy1 : s ≤ y) (hy2 : y < e) : ∃ b, bandAt l y = some b := by
  induction l generalizing s with
  | nil => rw [contigSeg_nil h] at hy1; omega
  | cons kb t ih =>
    obtain ⟨hk, ht⟩ := h
    by_cases hc : y < kb.1 + kb.2.length
    · refine ⟨kb.2, ?_⟩
      rw [bandAt_cons, if_pos ⟨by omega, hc⟩]
    · obtain ⟨b', hb'⟩ := ih ht (by omega)
      refine ⟨b', ?_⟩
      rw [bandAt_cons, if_neg (by omega)]
      exact hb'

lemma bandAt_append_left {l r : SplayMap} {y : Int} {b : Band}
    (h : bandAt l y = some b) : bandAt (l ++ r) y = some b := by
  unfold bandAt at h ⊢
  rw [List.find?_append]
  obtain ⟨kb, hkb, hmap⟩ := Option.map_eq_some'.mp h
  rw [hkb]
  simpa using hmap

lemma bandAt_append_right {l r : SplayMap} {y : Int}
    (h : bandAt l y = none) : bandAt (l ++ r) y = bandAt r y := by
  unfold bandAt at h ⊢
  rw [List.find?_append]
  rw [Option.map_eq_none'] at h
  rw [h]
  rfl

lemma bandAt_append_in {s e : Int} {l r : SplayMap} (h : ContigSeg s e l)
    {y : Int} (hy1 : s ≤ y) (hy2 : y < e) : bandAt (l ++ r) y = bandAt l y := by
  obtain ⟨b, hb⟩ := bandAt_some_of_in h hy1 hy2
  rw [hb, bandAt_append_left hb]

lemma bandAt_append_out {s e : Int} {l r : SplayMap} (h : ContigSeg s e l) (hp : PosL l)
    {y : Int} (hy : y < s ∨ e ≤ y) : bandAt (l ++ r) y = bandAt r y :=
  bandAt_append_right (bandAt_none_of_out h hp hy)

lemma bandAt_mem {l : SplayMap} {y : Int} {b : Band} (h : bandAt l y = some b) :
    ∃ k, (k, b) ∈ l ∧ k ≤ y ∧ y < k + b.length := by
  unfold bandAt at h
  obtain ⟨kb, hkb, hmap⟩ := Option.map_eq_some'.mp h
  have hmem := List.mem_of_find?_eq_some hkb
  have hpred := List.find?_some hkb
  simp only [Bool.and_eq_true, decide_eq_true_eq] at hpred
  cases hmap
  exact ⟨kb.1, by simpa using hmem, hpred.1, hpred.2⟩

lemma bandAt_key {s e : Int} {l : SplayMap} (h : ContigSeg s e l) (hp : PosL l)
    {k : Int} {b : Band} (hm : (k, b) ∈ l) : bandAt l k = some b := by
  induction l generalizing s with
  | nil => cases hm
  | cons x t ih =>
    obtain ⟨hk, ht⟩ := h
    obtain ⟨hb, hpt⟩ := posL_cons.mp hp
    rcases List.mem_cons.mp hm with heq | hmem
    · cases heq.symm
      rw [bandAt_cons, if_pos]
      exact ⟨le_refl _, by omega⟩
    · have hbounds := contigSeg_mem_bounds ht hpt hmem
      have hbk : k ≥ s + x.2.length := hbounds.1
      rw [bandAt_cons, if_neg]
      · exact ih ht hpt hmem
      · omega

/-! ## Characterisation of the map searches on a contiguous band store -/

lemma get_with_pred_true {cmp : Int → Band → Ordering} {k : Int} {b : Band} :
    ((match cmp k b with | Ordering.eq => true | _ => false) = true) ↔ cmp k b = Ordering.eq := by
  cases cmp k b <;> simp

lemma get_with_of_contig {cmp : Int → Band → Ordering} {s e z : Int} {l : SplayMap}
    (h : ContigSeg s e l) (hp : PosL l)
    (hcmp : ∀ k b, cmp k b = Ordering.eq ↔ (k ≤ z ∧ z < k + b.length))
    (hz1 : s ≤ z) (hz2 : z < e) :
    ∃ P k b S, l = P ++ (k, b) :: S ∧ SplayMap.get_with cmp l = some (k, b) ∧
      k ≤ z ∧ z < k + b.length ∧ ContigSeg s k P ∧ ContigSeg (k + b.length) e S := by
  induction l generalizing s with
  | nil =>
    exfalso
    have := contigSeg_nil h
    omega
  | cons x t ih =>
    obtain ⟨hk, ht⟩ := h
    obtain ⟨hb, hpt⟩ := posL_cons.mp hp
    by_cases hc : z < x.1 + x.2.length
    · refine ⟨[], x.1, x.2, t, by simp, ?_, by omega, hc, ?_, ?_⟩
      · unfold SplayMap.get_with
        rw [List.find?_cons_of_pos]
        exact get_with_pred_true.mpr ((hcmp x.1 x.2).mpr ⟨by omega, hc⟩)
      · exact hk.symm
      · rw [hk]
        exact ht
    · have hne : cmp x.1 x.2 ≠ Ordering.eq := by
        intro hcon
        exact hc ((hcmp x.1 x.2).mp hcon).2
      obtain ⟨P, k, b, S, hdec, hfind, hk1, hk2, hP, hS⟩ :=
        ih ht hpt (by omega)
      refine ⟨x :: P, k, b, S, by rw [hdec]; rfl, ?_, hk1, hk2, ⟨hk, hP⟩, hS⟩
      unfold SplayMap.get_with at hfind ⊢
      rw [List.find?_cons_of_neg]
      · exact hfind
      · simpa [get_with_pred_true] using hne

lemma get_with_none_of_out {cmp : Int → Band → Ordering} {s e z : Int} {l : SplayMap}
    (h : ContigSeg s e l) (hp : PosL l)
    (hcmp : ∀ k b, cmp k b = Ordering.eq ↔ (k ≤ z ∧ z < k + b.length))
    (hz : z < s ∨ e ≤ z) : SplayMap.get_with cmp l = none := by
  unfold SplayMap.get_with
  rw [List.find?_eq_none]
  intro kb hm
  have hbounds := contigSeg_mem_bounds h hp hm
  simp only [get_with_pred_true]
  intro hcon
  have := (hcmp kb.1 kb.2).mp hcon
  omega

/-! ## Structural behaviour of `insert` and `remove` on sorted stores -/

lemma insert_at {l1 l2 : SplayMap} {k : Int} {b : Band} (v : Band)
    (h : ∀ kb ∈ l1, kb.1 < k) :
    SplayMap.insert k v (l1 ++ (k, b) :: l2) = l1 ++ (k, v) :: l2 := by
  induction l1 with
  | nil => simp [SplayMap.insert]
  | cons x t ih =>
    have hx : x.1 < k := h x (List.mem_cons_self _ _)
    simp only [List.cons_append, SplayMap.insert, List.append_eq]
    rw [if_neg (by omega), if_neg (by omega),
      ih (fun kb hk => h kb (List.mem_cons_of_mem _ hk))]

lemma insert_between {l1 l2 : SplayMap} {k : Int} (v : Band)
    (h1 : ∀ kb ∈ l1, kb.1 < k) (h2 : ∀ kb ∈ l2.head?, k < kb.1) :
    SplayMap.insert k v (l1 ++ l2) = l1 ++ (k, v) :: l2 := by
  induction l1 with
  | nil =>
    cases l2 with
    | nil => rfl
    | cons y t =>
      have hy : k < y.1 := h2 y rfl
      simp only [List.nil_append, SplayMap.insert]
      rw [if_pos hy]
  | cons x t ih =>
    have hx : x.1 < k := h1 x (List.mem_cons_self _ _)
    simp only [List.cons_append, SplayMap.insert, List.append_eq]
    rw [if_neg (by omega), if_neg (by omega),
      ih (fun kb hk => h1 kb (List.mem_cons_of_mem _ hk))]

lemma remove_at {l1 l2 : SplayMap} {j : Int} {b : Band}
    (h1 : ∀ kb ∈ l1, kb.1 ≠ j) (h2 : ∀ kb ∈ l2, kb.1 ≠ j) :
    SplayMap.remove j (l1 ++ (j, b) :: l2) = l1 ++ l2 := by
  unfold SplayMap.remove
  rw [List.filter_append, List.filter_cons, if_neg (by simp)]
  rw [List.filter_eq_self.mpr (by intro a ha; simpa using h1 a ha),
    List.filter_eq_self.mpr (by intro a ha; simpa using h2 a ha)]

/-! ## The effect of `split` -/

lemma splitCmp_eq_iff (pos k : Int) (b : Band) :
    ((fun band_block_position band =>
        if pos < band_block_position then Ordering.lt
        else if pos ≥ band_block_position + band.length then Ordering.gt
        else Ordering.eq) k b = Ordering.eq) ↔ (k ≤ pos ∧ pos < k + b.length) := by
  show ((if pos < k then Ordering.lt
      else if pos ≥ k + b.length then Ordering.gt else Ordering.eq) = Ordering.eq) ↔ _
  by_cases hA : pos < k
  · rw [if_pos hA]
    constructor
    · intro hcon; cases hcon
    · intro hcon; omega
  · rw [if_neg hA]
    by_cases hB : pos ≥ k + b.length
    · rw [if_pos hB]
      constructor
      · intro hcon; cases hcon
      · intro hcon; omega
    · rw [if_neg hB]
      constructor
      · intro _; omega
      · intro _; rfl

lemma split_spec {e : Exclusions} (hc : ContigSeg 0 MAX_AU e.bands) (hp : PosL e.bands)
    {pos : Int} (h1 : 0 ≤ pos) (h2 : pos < MAX_AU) :
    ∃ P k b S, e.bands = P ++ (k, b) :: S ∧ k ≤ pos ∧ pos < k + b.length ∧
      ContigSeg 0 k P ∧ ContigSeg (k + b.length) MAX_AU S ∧
      ((pos = k ∧ e.split pos = some ⟨P ++ (k, b) :: S, e.inline_size⟩) ∨
       (k < pos ∧ e.split pos = some ⟨P ++ (k, ⟨b.left, b.right, pos - k⟩) ::
          (pos, ⟨b.left, b.right, k + b.length - pos⟩) :: S, e.inline_size⟩)) := by
  obtain ⟨P, k, b, S, hdec, hfind, hk1, hk2, hP, hS⟩ :=
    @get_with_of_contig (fun band_block_position band =>
        if pos < band_block_position then Ordering.lt
        else if pos ≥ band_block_position + band.length then Ordering.gt
        else Ordering.eq) 0 MAX_AU pos e.bands
      hc hp (fun k b => splitCmp_eq_iff pos k b) h1 h2
  have hPkeys : ∀ kb ∈ P, kb.1 < k := by
    intro kb hm
    have hPpos : PosL P := by
      rw [hdec] at hp
      exact (posL_append.mp hp).1
    have := contigSeg_mem_bounds hP hPpos hm
    have := hPpos kb hm
    omega
  refine ⟨P, k, b, S, hdec, hk1, hk2, hP, hS, ?_⟩
  unfold Exclusions.split
  rw [hdec] at hfind
  rw [hdec, hfind]
  dsimp only
  by_cases hpk : pos = k
  · left
    refine ⟨hpk, ?_⟩
    cases hpk
    rw [insert_at _ hPkeys, insert_at _ hPkeys]
    have hband : (⟨b.left, b.right, pos + b.length - pos⟩ : Band) = b := by
      have : pos + b.length - pos = b.length := by omega
      rw [this]
    rw [hband]
  · right
    have hkpos : k < pos := by omega
    refine ⟨hkpos, ?_⟩
    rw [insert_at _ hPkeys]
    have hgoal := @insert_between (P ++ [(k, (⟨b.left, b.right, pos - k⟩ : Band))])
      S pos (⟨b.left, b.right, k + b.length - pos⟩ : Band)
      (by
        intro kb hm
        rcases List.mem_append.mp hm with hmm | hmm
        · exact lt_trans (hPkeys kb hmm) hkpos
        · rcases List.mem_singleton.mp hmm with rfl
          exact hkpos)
      (by
        intro kb hm
        have hSpos : PosL S := by
          rw [hdec] at hp
          exact (posL_cons.mp (posL_append.mp hp).2).2
        cases S with
        | nil => cases hm
        | cons y t =>
          obtain ⟨hy, _⟩ := hS
          cases hm
          omega)
    rw [List.append_assoc, List.singleton_append] at hgoal
    rw [hgoal, List.append_assoc, List.singleton_append]

/-! ## Helpers for the `exclude` walk -/

/-- Adjacent bands always differ in their `(left, right)` pair. -/
def AdjDist (m : SplayMap) : Prop :=
  m.Chain' (fun x y => ¬(x.2.left = y.2.left ∧ x.2.right = y.2.right))

/-- The pointwise effect of the `exclude` walk: above the cursor the insets
of the band at every position are untouched; below it they are deepened by
`updLR`. -/
def PW (side : Side) (mI : Int) (c : Int) (old new : SplayMap) : Prop :=
  (∀ y b', c ≤ y → bandAt new y = some b' →
     ∃ b, bandAt old y = some b ∧ b'.left = b.left ∧ b'.right = b.right) ∧
  (∀ y b', 0 ≤ y → y < c → bandAt new y = some b' →
     ∃ b, bandAt old y = some b ∧ (b'.left, b'.right) = updLR side mI (b.left, b.right))

lemma loopFound_eq_iff (lp k : Int) (b : Band) :
    loopFound lp k b = Ordering.eq ↔ (k ≤ lp - 1 ∧ lp - 1 < k + b.length) := by
  unfold loopFound
  by_cases h1 : lp ≤ k
  · rw [if_pos h1]
    constructor
    · intro hcon; cases hcon
    · intro hcon; omega
  · rw [if_neg h1]
    by_cases h2 : lp > k + b.length
    · rw [if_pos h2]
      constructor
      · intro hcon; cases hcon
      · intro hcon; omega
    · rw [if_neg h2]
      constructor
      · intro _; omega
      · intro _; rfl

lemma get_with_found_at {cmp : Int → Band → Ordering} {z : Int} {P rest : SplayMap}
    {x : Int × Band}
    (hcmp : ∀ k b, cmp k b = Ordering.eq ↔ (k ≤ z ∧ z < k + b.length))
    (hP : ∀ kb ∈ P, ¬(kb.1 ≤ z ∧ z < kb.1 + kb.2.length))
    (hx : x.1 ≤ z ∧ z < x.1 + x.2.length) :
    SplayMap.get_with cmp (P ++ x :: rest) = some x := by
  induction P with
  | nil =>
    unfold SplayMap.get_with
    rw [List.nil_append, List.find?_cons_of_pos]
    exact get_with_pred_true.mpr ((hcmp x.1 x.2).mpr hx)
  | cons a t ih =>
    unfold SplayMap.get_with at ih ⊢
    rw [List.cons_append, List.find?_cons_of_neg]
    · exact ih (fun kb hk => hP kb (List.mem_cons_of_mem _ hk))
    · simp only [get_with_pred_true]
      intro hcon
      exact hP a (List.mem_cons_self _ _) ((hcmp a.1 a.2).mp hcon)

lemma Band.get_set_same (b : Band) (side : Side) (v : Int) : (b.set side v).get side = v := by
  cases side <;> rfl

lemma Band.length_set (b : Band) (side : Side) (v : Int) : (b.set side v).length = b.length := by
  cases side <;> rfl

lemma set_updLR {b : Band} {side : Side} {mI : Int} (h : -(b.get side) ≤ mI) :
    ((b.set side (-mI)).left, (b.set side (-mI)).right) = updLR side mI (b.left, b.right) := by
  cases side
  · simp only [Band.set, Band.get, updLR] at h ⊢
    rw [min_eq_right (by omega)]
  · simp only [Band.set, Band.get, updLR] at h ⊢
    rw [min_eq_right (by omega)]

lemma updLR_id {side : Side} {mI : Int} {b : Band} (h : b.get side ≤ -mI) :
    updLR side mI (b.left, b.right) = (b.left, b.right) := by
  cases side
  · simp only [Band.get, updLR] at h ⊢
    rw [min_eq_left h]
  · simp only [Band.get, updLR] at h ⊢
    rw [min_eq_left h]

lemma pw_comp {side : Side} {mI : Int} {km lp : Int} {inp mid out : SplayMap}
    (hkml : km ≤ lp)
    (hmid1 : ∀ y b', (y < km ∨ lp ≤ y) → bandAt mid y = some b' →
       ∃ b, bandAt inp y = some b ∧ b'.left = b.left ∧ b'.right = b.right)
    (hmid2 : ∀ y b', km ≤ y → y < lp → bandAt mid y = some b' →
       ∃ b, bandAt inp y = some b ∧ (b'.left, b'.right) = updLR side mI (b.left, b.right))
    (hout : PW side mI km mid out) : PW side mI lp inp out := by
  obtain ⟨hout1, hout2⟩ := hout
  constructor
  · intro y b' hy hb'
    by_cases hykm : km ≤ y
    · obtain ⟨bm, hbm, he1, he2⟩ := hout1 y b' hykm hb'
      obtain ⟨b, hb, hf1, hf2⟩ := hmid1 y bm (Or.inr hy) hbm
      exact ⟨b, hb, he1.trans hf1, he2.trans hf2⟩
    · exfalso
      omega
  · intro y b' hy0 hy hb'
    by_cases hykm : km ≤ y
    · obtain ⟨bm, hbm, he1, he2⟩ := hout1 y b' hykm hb'
      obtain ⟨b, hb, hupd⟩ := hmid2 y bm hykm hy hbm
      refine ⟨b, hb, ?_⟩
      rw [he1, he2]
      exact hupd
    · obtain ⟨bm, hbm, hupd⟩ := hout2 y b' hy0 (by omega) hb'
      obtain ⟨b, hb, hf1, hf2⟩ := hmid1 y bm (Or.inl (by omega)) hbm
      refine ⟨b, hb, ?_⟩
      rw [hupd, hf1, hf2]

lemma nonpos_set {b : Band} {side : Side} {mI : Int} (h : b.left ≤ 0 ∧ b.right ≤ 0)
    (hm : 0 ≤ mI) : (b.set side (-mI)).left ≤ 0 ∧ (b.set side (-mI)).right ≤ 0 := by
  cases side
  · exact ⟨by simp [Band.set]; omega, by simp [Band.set]; exact h.2⟩
  · exact ⟨by simp [Band.set]; exact h.1, by simp [Band.set]; omega⟩

lemma get_le_of_le {b c : Band} (h1 : b.left ≤ c.left) (h2 : b.right ≤ c.right) (side : Side) :
    b.get side ≤ c.get side := by
  cases side
  · exact h1
  · exact h2

/-- Pointwise relation between the band store before and after one
non-merging iteration of the walk: the band at `km` (spanning `[km, lp)`)
has had its `side` inset deepened; everything else is untouched. -/
lemma mid_spec_set {side : Side} {mI : Int} {L0 T : SplayMap} {km lp E : Int} {bm b1 : Band}
    (hL0 : ContigSeg 0 km L0) (hpL0 : PosL L0)
    (hbm : km + bm.length = lp) (hb1len : b1.length = bm.length) (hbmpos : 0 < bm.length)
    (hT : ContigSeg lp E T) (hpT : PosL T)
    (hupd : (b1.left, b1.right) = updLR side mI (bm.left, bm.right)) :
    (∀ y b', (y < km ∨ lp ≤ y) → bandAt (L0 ++ (km, b1) :: T) y = some b' →
       ∃ b, bandAt (L0 ++ (km, bm) :: T) y = some b ∧ b'.left = b.left ∧ b'.right = b.right) ∧
    (∀ y b', km ≤ y → y < lp → bandAt (L0 ++ (km, b1) :: T) y = some b' →
       ∃ b, bandAt (L0 ++ (km, bm) :: T) y = some b ∧
         (b'.left, b'.right) = updLR side mI (b.left, b.right)) := by
  have hkm0 : 0 ≤ km := contigSeg_le hL0 hpL0
  have hcs1 : ContigSeg km E ((km, b1) :: T) := by
    refine ⟨rfl, ?_⟩
    show ContigSeg (km + b1.length) E T
    rw [hb1len, hbm]
    exact hT
  have hpos1 : PosL ((km, b1) :: T) := posL_cons.mpr ⟨by show 0 < b1.length; omega, hpT⟩
  have hmid_lt : ∀ y, km ≤ y → y < lp → bandAt (L0 ++ (km, b1) :: T) y = some b1 := by
    intro y hy1 hy2
    rw [bandAt_append_out hL0 hpL0 (Or.inr hy1), bandAt_cons, if_pos]
    exact ⟨hy1, by show y < km + b1.length; omega⟩
  have hinp_lt : ∀ y, km ≤ y → y < lp → bandAt (L0 ++ (km, bm) :: T) y = some bm := by
    intro y hy1 hy2
    rw [bandAt_append_out hL0 hpL0 (Or.inr hy1), bandAt_cons, if_pos]
    exact ⟨hy1, by show y < km + bm.length; omega⟩
  have hmid_ge : ∀ y, lp ≤ y → bandAt (L0 ++ (km, b1) :: T) y = bandAt T y := by
    intro y hy
    rw [bandAt_append_out hL0 hpL0 (Or.inr (by omega)), bandAt_cons, if_neg]
    intro hcon
    have : y < km + b1.length := hcon.2
    omega
  have hinp_ge : ∀ y, lp ≤ y → bandAt (L0 ++ (km, bm) :: T) y = bandAt T y := by
    intro y hy
    rw [bandAt_append_out hL0 hpL0 (Or.inr (by omega)), bandAt_cons, if_neg]
    intro hcon
    have : y < km + bm.length := hcon.2
    omega
  have hboth_lo : ∀ y, y < km →
      bandAt (L0 ++ (km, b1) :: T) y = bandAt (L0 ++ (km, bm) :: T) y := by
    intro y hy
    by_cases hy0 : 0 ≤ y
    · rw [bandAt_append_in hL0 hy0 hy, bandAt_append_in hL0 hy0 hy]
    · rw [bandAt_append_out hL0 hpL0 (Or.inl (by omega)),
        bandAt_append_out hL0 hpL0 (Or.inl (by omega)), bandAt_cons, bandAt_cons,
        if_neg (by omega), if_neg (by omega)]
  constructor
  · intro y b' hy hb'
    rcases hy with hy | hy
    · rw [hboth_lo y hy] at hb'
      exact ⟨b', hb', rfl, rfl⟩
    · rw [hmid_ge y hy] at hb'
      rw [hinp_ge y hy]
      exact ⟨b', hb', rfl, rfl⟩
  · intro y b' hy1 hy2 hb'
    rw [hmid_lt y hy1 hy2] at hb'
    cases hb'
    exact ⟨bm, hinp_lt y hy1 hy2, hupd⟩

/-- Pointwise relation across one merging iteration of the walk: the band at
`km` absorbed the band at `lp` (whose insets had just been made equal), so
the merged band spans `[km, lp + mb.length)`; insets are deepened on
`[km, lp)` and untouched everywhere else. -/
lemma mid_spec_merge {side : Side} {mI : Int} {L0 T : SplayMap} {km lp E : Int}
    {bm mb b2 : Band}
    (hL0 : ContigSeg 0 km L0) (hpL0 : PosL L0)
    (hbm : km + bm.length = lp) (hbmpos : 0 < bm.length) (hmbpos : 0 < mb.length)
    (hb2len : b2.length = bm.length + mb.length)
    (hT : ContigSeg (lp + mb.length) E T) (hpT : PosL T)
    (hupd : (b2.left, b2.right) = updLR side mI (bm.left, bm.right))
    (hlr : b2.left = mb.left ∧ b2.right = mb.right) :
    (∀ y b', (y < km ∨ lp ≤ y) → bandAt (L0 ++ (km, b2) :: T) y = some b' →
       ∃ b, bandAt (L0 ++ (km, bm) :: (lp, mb) :: T) y = some b ∧
         b'.left = b.left ∧ b'.right = b.right) ∧
    (∀ y b', km ≤ y → y < lp → bandAt (L0 ++ (km, b2) :: T) y = some b' →
       ∃ b, bandAt (L0 ++ (km, bm) :: (lp, mb) :: T) y = some b ∧
         (b'.left, b'.right) = updLR side mI (b.left, b.right)) := by
  have hkm0 : 0 ≤ km := contigSeg_le hL0 hpL0
  have hmid_in : ∀ y, km ≤ y → y < lp + mb.length →
      bandAt (L0 ++ (km, b2) :: T) y = some b2 := by
    intro y hy1 hy2
    rw [bandAt_append_out hL0 hpL0 (Or.inr hy1), bandAt_cons, if_pos]
    exact ⟨hy1, by show y < km + b2.length; omega⟩
  have hmid_ge : ∀ y, lp + mb.length ≤ y → bandAt (L0 ++ (km, b2) :: T) y = bandAt T y := by
    intro y hy
    rw [bandAt_append_out hL0 hpL0 (Or.inr (by omega)), bandAt_cons, if_neg]
    intro hcon
    have : y < km + b2.length := hcon.2
    omega
  have hinp_bm : ∀ y, km ≤ y → y < lp →
      bandAt (L0 ++ (km, bm) :: (lp, mb) :: T) y = some bm := by
    intro y hy1 hy2
    rw [bandAt_append_out hL0 hpL0 (Or.inr hy1), bandAt_cons, if_pos]
    exact ⟨hy1, by show y < km + bm.length; omega⟩
  have hinp_mb : ∀ y, lp ≤ y → y < lp + mb.length →
      bandAt (L0 ++ (km, bm) :: (lp, mb) :: T) y = some mb := by
    intro y hy1 hy2
    rw [bandAt_append_out hL0 hpL0 (Or.inr (by omega)), bandAt_cons,
      if_neg (by intro hcon; have : y < km + bm.length := hcon.2; omega), bandAt_cons, if_pos]
    exact ⟨hy1, hy2⟩
  have hinp_ge : ∀ y, lp + mb.length ≤ y →
      bandAt (L0 ++ (km, bm) :: (lp, mb) :: T) y = bandAt T y := by
    intro y hy
    rw [bandAt_append_out hL0 hpL0 (Or.inr (by omega)), bandAt_cons,
      if_neg (by intro hcon; have : y < km + bm.length := hcon.2; omega), bandAt_cons,
      if_neg (by intro hcon; have : y < lp + mb.length := hcon.2; omega)]
  have hboth_lo : ∀ y, y < km →
      bandAt (L0 ++ (km, b2) :: T) y = bandAt (L0 ++ (km, bm) :: (lp, mb) :: T) y := by
    intro y hy
    by_cases hy0 : 0 ≤ y
    · rw [bandAt_append_in hL0 hy0 hy, bandAt_append_in hL0 hy0 hy]
    · rw [bandAt_append_out hL0 hpL0 (Or.inl (by omega)),
        bandAt_append_out hL0 hpL0 (Or.inl (by omega)), bandAt_cons, bandAt_cons,
        if_neg (by omega), if_neg (by omega), bandAt_cons, if_neg (by omega)]
  constructor
  · intro y b' hy hb'
    rcases hy with hy | hy
    · rw [hboth_lo y hy] at hb'
      exact ⟨b', hb', rfl, rfl⟩
    · by_cases hy2 : y < lp + mb.length
      · rw [hmid_in y (by omega) hy2] at hb'
        cases hb'
        exact ⟨mb, hinp_mb y hy hy2, hlr.1, hlr.2⟩
      · rw [hmid_ge y (by omega)] at hb'
        rw [hinp_ge y (by omega)]
        exact ⟨b', hb', rfl, rfl⟩
  · intro y b' hy1 hy2 hb'
    rw [hmid_in y hy1 (by omega)] at hb'
    cases hb'
    exact ⟨bm, hinp_bm y hy1 hy2, hupd⟩

/-- The walk of `exclude`, fully characterised on invariant stores.
`L` is the run of bands strictly above the cursor, `M` the (already
processed) run between the cursor and the original cut `f`, and `R0` the
bands at and below the cut.  The walk stops at a prefix `A` of `L` whose
last band is too deep to extend, rewrites the rest of `L` into `M'` (each
band's `side` inset set to exactly `size.inline`, equal adjacent bands
merged), and leaves `R0` untouched. -/
lemma excludeLoop_spec (side : Side) (size : Size) (hmI : 0 < size.inline) (f : Int)
    {R0 : SplayMap} (hR0 : ContigSeg f MAX_AU R0) (hpR0 : PosL R0) :
    ∀ (fuel : Nat) (L M : SplayMap) (lp : Int) (lb : Option Band),
    L.length < fuel →
    ContigSeg 0 lp L → ContigSeg lp f M →
    PosL L → PosL M → NonposL L → NonposL M →
    MonoL L →
    lb = M.head?.map Prod.snd →
    (∀ kb ∈ M, kb.2.get side = -size.inline) →
    AdjDist M →
    ∃ A M' q,
      excludeLoop side size fuel (L ++ (M ++ R0)) lp lb = A ++ (M' ++ R0) ∧
      (∃ t, L = A ++ t) ∧
      ContigSeg 0 q A ∧ ContigSeg q f M' ∧
      (∀ z ∈ A.getLast?, size.inline < -(z.2.get side)) ∧
      (∀ kb ∈ M', kb.2.get side = -size.inline) ∧
      AdjDist M' ∧
      PosL A ∧ PosL M' ∧ NonposL A ∧ NonposL M' ∧
      PW side size.inline lp (L ++ (M ++ R0)) (A ++ (M' ++ R0)) := by
  intro fuel
  induction fuel with
  | zero =>
    intro L M lp lb hfuel
    exact absurd hfuel (by omega)
  | succ fuel ih =>
    intro L M lp lb hfuel hL hM hpL hpM hnL hnM hmono hlb hMside hMadj
    rcases List.eq_nil_or_concat L with rfl | ⟨L0, x, hconc⟩
    · -- the cursor has reached the zone top: the search finds nothing
      have hlp : lp = 0 := (contigSeg_nil hL).symm
      subst hlp
      have hMR : ContigSeg 0 MAX_AU (M ++ R0) := contigSeg_append hM hR0
      have hpMR : PosL (M ++ R0) := posL_append.mpr ⟨hpM, hpR0⟩
      have hnone : SplayMap.get_with (loopFound 0) (M ++ R0) = none :=
        get_with_none_of_out hMR hpMR (fun k b => loopFound_eq_iff 0 k b) (Or.inl (by omega))
      refine ⟨[], M, 0, ?_, ?_, ?_, ?_, ?_, ?_, ?_, ?_, ?_, ?_, ?_, ?_⟩
      · simp only [excludeLoop, List.nil_append]
        rw [hnone]
      · exact ⟨[], rfl⟩
      · rfl
      · exact hM
      · simp
      · exact hMside
      · exact hMadj
      · intro kb h
        cases h
      · exact hpM
      · intro kb h
        cases h
      · exact hnM
      · constructor
        · intro y b' _ hb'
          exact ⟨b', hb', rfl, rfl⟩
        · intro y b' hy0 hy _
          exact absurd hy (by omega)
    · -- L = L0 ++ [x]: the search finds x, the last band above the cursor
      rw [List.concat_eq_append] at hconc
      subst hconc
      obtain ⟨mid, hL0, hx⟩ := contigSeg_append_split hL
      obtain ⟨km, bm⟩ := x
      have hkm_mid : km = mid := hx.1
      subst hkm_mid
      have hlen : km + bm.length = lp := contigSeg_nil hx.2
      have hbm_pos : 0 < bm.length := hpL (km, bm) (by simp)
      have hpL0 : PosL L0 := fun kb h => hpL kb (List.mem_append_left _ h)
      have hnL0 : NonposL L0 := fun kb h => hnL kb (List.mem_append_left _ h)
      have hnbm : bm.left ≤ 0 ∧ bm.right ≤ 0 := hnL (km, bm) (by simp)
      have hmono0 : MonoL L0 := (List.pairwise_append.mp hmono).1
      have hcross : ∀ kb ∈ L0, kb.2.left ≤ bm.left ∧ kb.2.right ≤ bm.right := by
        intro kb h
        exact (List.pairwise_append.mp hmono).2.2 kb h (km, bm) (by simp)
      have hL0keys : ∀ kb ∈ L0, kb.1 < km := by
        intro kb h
        have hb := contigSeg_mem_bounds hL0 hpL0 h
        have := hpL0 kb h
        omega
      have hkm0 : 0 ≤ km := contigSeg_le hL0 hpL0
      have hkmlp : km < lp := by omega
      have hfuel0 : L0.length < fuel := by
        simp only [List.length_append, List.length_singleton] at hfuel
        omega
      have hfind : SplayMap.get_with (loopFound lp) (L0 ++ (km, bm) :: (M ++ R0))
          = some (km, bm) := by
        refine get_with_found_at (fun k b => loopFound_eq_iff lp k b) ?_
          ⟨by show km ≤ lp - 1; omega, by show lp - 1 < km + bm.length; omega⟩
        intro kb h
        have hb := contigSeg_mem_bounds hL0 hpL0 h
        intro hcon
        omega
      have hshape : (L0 ++ [(km, bm)]) ++ (M ++ R0) = L0 ++ (km, bm) :: (M ++ R0) := by simp
      rw [hshape]
      by_cases hguard : -(bm.get side) ≤ size.inline
      · -- the band is extended
        have hupd1 : ((bm.set side (-size.inline)).left, (bm.set side (-size.inline)).right)
            = updLR side size.inline (bm.left, bm.right) := set_updLR hguard
        have hb1len : (bm.set side (-size.inline)).length = bm.length :=
          Band.length_set bm side (-size.inline)
        have hb1get : (bm.set side (-size.inline)).get side = -size.inline :=
          Band.get_set_same bm side (-size.inline)
        have hb1n : (bm.set side (-size.inline)).left ≤ 0 ∧
            (bm.set side (-size.inline)).right ≤ 0 := nonpos_set hnbm (le_of_lt hmI)
        cases M with
        | nil =>
          have hlpf : lp = f := contigSeg_nil hM
          subst hlpf
          have hlb' : lb = none := by simpa using hlb
          subst hlb'
          simp only [List.nil_append] at hfind ⊢
          obtain ⟨A, M', q, hout, hpre, hcsA, hcsM, hAlast, hMside', hMadj', hpA, hpM', hnA,
              hnM', hPW⟩ :=
            ih L0 [(km, bm.set side (-size.inline))] km (some (bm.set side (-size.inline)))
              hfuel0 hL0
              (by
                refine ⟨rfl, ?_⟩
                show km + (bm.set side (-size.inline)).length = lp
                rw [hb1len]
                omega)
              hpL0
              (by
                intro kb hkb
                rcases List.mem_singleton.mp hkb with rfl
                show 0 < (bm.set side (-size.inline)).length
                rw [hb1len]
                omega)
              hnL0
              (by
                intro kb hkb
                rcases List.mem_singleton.mp hkb with rfl
                exact hb1n)
              hmono0 rfl
              (by
                intro kb hkb
                rcases List.mem_singleton.mp hkb with rfl
                exact hb1get)
              (List.chain'_singleton _)
          simp only [List.singleton_append] at hout hPW
          refine ⟨A, M', q, ?_, ?_, hcsA, hcsM, hAlast, hMside', hMadj', hpA, hpM', hnA,
            hnM', ?_⟩
          · simp only [excludeLoop]
            rw [hfind]
            dsimp only
            rw [if_pos hguard]
            rw [show SplayMap.insert km (bm.set side (-size.inline))
                (L0 ++ (km, bm) :: R0)
                = L0 ++ (km, bm.set side (-size.inline)) :: R0 from
              insert_at _ hL0keys]
            exact hout
          · obtain ⟨t0, ht0⟩ := hpre
            exact ⟨t0 ++ [(km, bm)], by rw [← List.append_assoc, ← ht0]⟩
          · refine pw_comp (le_of_lt hkmlp) ?_ ?_ hPW
            · exact (mid_spec_set hL0 hpL0 hlen hb1len hbm_pos hR0 hpR0 hupd1).1
            · exact (mid_spec_set hL0 hpL0 hlen hb1len hbm_pos hR0 hpR0 hupd1).2
        | cons mhd Mt =>
          obtain ⟨mk, mb⟩ := mhd
          have hmk : mk = lp := hM.1
          subst hmk
          have hMt : ContigSeg (mk + mb.length) f Mt := hM.2
          have hmb_pos : 0 < mb.length := hpM (mk, mb) (List.mem_cons_self _ _)
          have hmb_side : mb.get side = -size.inline := hMside (mk, mb) (List.mem_cons_self _ _)
          have hmb_n : mb.left ≤ 0 ∧ mb.right ≤ 0 := hnM (mk, mb) (List.mem_cons_self _ _)
          have hpMt : PosL Mt := fun kb h => hpM kb (List.mem_cons_of_mem _ h)
          have hnMt : NonposL Mt := fun kb h => hnM kb (List.mem_cons_of_mem _ h)
          have hMtside : ∀ kb ∈ Mt, kb.2.get side = -size.inline :=
            fun kb h => hMside kb (List.mem_cons_of_mem _ h)
          have hlb' : lb = some mb := by simpa using hlb
          subst hlb'
          simp only [List.cons_append] at hfind ⊢
          have hTcs : ContigSeg mk MAX_AU ((mk, mb) :: (Mt ++ R0)) :=
            ⟨rfl, contigSeg_append hMt hR0⟩
          have hTpos : PosL ((mk, mb) :: (Mt ++ R0)) :=
            posL_cons.mpr ⟨hmb_pos, posL_append.mpr ⟨hpMt, hpR0⟩⟩
          by_cases hmerge : (bm.set side (-size.inline)).left = mb.left ∧
              (bm.set side (-size.inline)).right = mb.right
          · -- merge with the band below, then delete it
            have hb2get : (⟨(bm.set side (-size.inline)).left,
                (bm.set side (-size.inline)).right,
                (bm.set side (-size.inline)).length + mb.length⟩ : Band).get side
                = -size.inline := by
              cases side
              · exact hb1get
              · exact hb1get
            have hb2lr : ((⟨(bm.set side (-size.inline)).left,
                (bm.set side (-size.inline)).right,
                (bm.set side (-size.inline)).length + mb.length⟩ : Band).left,
                (⟨(bm.set side (-size.inline)).left, (bm.set side (-size.inline)).right,
                (bm.set side (-size.inline)).length + mb.length⟩ : Band).right)
                = updLR side size.inline (bm.left, bm.right) := hupd1
            obtain ⟨A, M', q, hout, hpre, hcsA, hcsM, hAlast, hMside', hMadj', hpA, hpM', hnA,
                hnM', hPW⟩ :=
              ih L0 ((km, ⟨(bm.set side (-size.inline)).left,
                  (bm.set side (-size.inline)).right,
                  (bm.set side (-size.inline)).length + mb.length⟩) :: Mt) km
                (some ⟨(bm.set side (-size.inline)).left, (bm.set side (-size.inline)).right,
                  (bm.set side (-size.inline)).length + mb.length⟩)
                hfuel0 hL0
                (by
                  refine ⟨rfl, ?_⟩
                  show ContigSeg (km + ((bm.set side (-size.inline)).length + mb.length)) f Mt
                  have harith : km + ((bm.set side (-size.inline)).length + mb.length)
                      = mk + mb.length := by
                    rw [hb1len]
                    omega
                  rw [harith]
                  exact hMt)
                hpL0
                (by
                  intro kb hkb
                  rcases List.mem_cons.mp hkb with rfl | h
                  · show 0 < (bm.set side (-size.inline)).length + mb.length
                    rw [hb1len]
                    omega
                  · exact hpMt kb h)
                hnL0
                (by
                  intro kb hkb
                  rcases List.mem_cons.mp hkb with rfl | h
                  · exact ⟨hb1n.1, hb1n.2⟩
                  · exact hnMt kb h)
                hmono0 rfl
                (by
                  intro kb hkb
                  rcases List.mem_cons.mp hkb with rfl | h
                  · exact hb2get
                  · exact hMtside kb h)
                (by
                  refine List.chain'_cons'.mpr ⟨?_, (List.chain'_cons'.mp hMadj).2⟩
                  intro y hy
                  have hadj := (List.chain'_cons'.mp hMadj).1 y hy
                  intro hcon
                  refine hadj ?_
                  constructor
                  · rw [← hmerge.1]
                    exact hcon.1
                  · rw [← hmerge.2]
                    exact hcon.2)
            simp only [List.cons_append] at hout hPW
            refine ⟨A, M', q, ?_, ?_, hcsA, hcsM, hAlast, hMside', hMadj', hpA, hpM', hnA,
              hnM', ?_⟩
            · simp only [excludeLoop]
              rw [hfind]
              dsimp only
              rw [if_pos hguard, if_pos hmerge]
              rw [show SplayMap.insert km
                  ⟨(bm.set side (-size.inline)).left, (bm.set side (-size.inline)).right,
                    (bm.set side (-size.inline)).length + mb.length⟩
                  (L0 ++ (km, bm) :: ((mk, mb) :: (Mt ++ R0)))
                  = L0 ++ (km, ⟨(bm.set side (-size.inline)).left,
                      (bm.set side (-size.inline)).right,
                      (bm.set side (-size.inline)).length + mb.length⟩) ::
                    ((mk, mb) :: (Mt ++ R0)) from insert_at _ hL0keys]
              rw [show L0 ++ (km, (⟨(bm.set side (-size.inline)).left,
                    (bm.set side (-size.inline)).right,
                    (bm.set side (-size.inline)).length + mb.length⟩ : Band)) ::
                      ((mk, mb) :: (Mt ++ R0))
                  = (L0 ++ [(km, (⟨(bm.set side (-size.inline)).left,
                      (bm.set side (-size.inline)).right,
                      (bm.set side (-size.inline)).length + mb.length⟩ : Band))]) ++
                      ((mk, mb) :: (Mt ++ R0)) by simp]
              rw [show SplayMap.remove mk
                  ((L0 ++ [(km, (⟨(bm.set side (-size.inline)).left,
                      (bm.set side (-size.inline)).right,
                      (bm.set side (-size.inline)).length + mb.length⟩ : Band))]) ++
                    ((mk, mb) :: (Mt ++ R0)))
                  = (L0 ++ [(km, (⟨(bm.set side (-size.inline)).left,
                      (bm.set side (-size.inline)).right,
                      (bm.set side (-size.inline)).length + mb.length⟩ : Band))]) ++
                    (Mt ++ R0) from remove_at ?_ ?_]
              · rw [show (L0 ++ [(km, (⟨(bm.set side (-size.inline)).left,
                      (bm.set side (-size.inline)).right,
                      (bm.set side (-size.inline)).length + mb.length⟩ : Band))]) ++
                    (Mt ++ R0)
                    = L0 ++ (km, (⟨(bm.set side (-size.inline)).left,
                      (bm.set side (-size.inline)).right,
                      (bm.set side (-size.inline)).length + mb.length⟩ : Band)) ::
                      (Mt ++ R0) by simp]
                exact hout
              · intro kb h
                rcases List.mem_append.mp h with h | h
                · have := hL0keys kb h
                  omega
                · rcases List.mem_singleton.mp h with rfl
                  show km ≠ mk
                  omega
              · intro kb h
                rcases List.mem_append.mp h with h | h
                · have hb := contigSeg_mem_bounds hMt hpMt h
                  have := hpMt kb h
                  omega
                · have hb := contigSeg_mem_bounds hR0 hpR0 h
                  have := hpR0 kb h
                  have hmf : mk + mb.length ≤ f := contigSeg_le hMt hpMt
                  omega
            · obtain ⟨t0, ht0⟩ := hpre
              exact ⟨t0 ++ [(km, bm)], by rw [← List.append_assoc, ← ht0]⟩
            · have hb2len : ((⟨(bm.set side (-size.inline)).left,
                  (bm.set side (-size.inline)).right,
                  (bm.set side (-size.inline)).length + mb.length⟩ : Band)).length
                  = bm.length + mb.length := by
                show (bm.set side (-size.inline)).length + mb.length = bm.length + mb.length
                rw [hb1len]
              have hmid := mid_spec_merge hL0 hpL0 hlen hbm_pos hmb_pos hb2len
                (contigSeg_append hMt hR0) (posL_append.mpr ⟨hpMt, hpR0⟩) hb2lr hmerge
              exact pw_comp (le_of_lt hkmlp) hmid.1 hmid.2 hPW
          · -- no merge: simply extend the band
            obtain ⟨A, M', q, hout, hpre, hcsA, hcsM, hAlast, hMside', hMadj', hpA, hpM', hnA,
                hnM', hPW⟩ :=
              ih L0 ((km, bm.set side (-size.inline)) :: (mk, mb) :: Mt) km
                (some (bm.set side (-size.inline)))
                hfuel0 hL0
                (by
                  refine ⟨rfl, ?_⟩
                  show ContigSeg (km + (bm.set side (-size.inline)).length) f ((mk, mb) :: Mt)
                  have harith : km + (bm.set side (-size.inline)).length = mk := by
                    rw [hb1len]
                    omega
                  rw [harith]
                  exact hM)
                hpL0
                (by
                  intro kb hkb
                  rcases List.mem_cons.mp hkb with rfl | h
                  · show 0 < (bm.set side (-size.inline)).length
                    rw [hb1len]
                    omega
                  · exact hpM kb h)
                hnL0
                (by
                  intro kb hkb
                  rcases List.mem_cons.mp hkb with rfl | h
                  · exact hb1n
                  · exact hnM kb h)
                hmono0 rfl
                (by
                  intro kb hkb
                  rcases List.mem_cons.mp hkb with rfl | h
                  · exact hb1get
                  · exact hMside kb h)
                (by
                  refine List.chain'_cons'.mpr ⟨?_, hMadj⟩
                  intro y hy
                  have hy' : y = (mk, mb) := by
                    have := hy
                    simp only [List.head?_cons, Option.mem_def, Option.some.injEq] at this
                    exact this.symm
                  subst hy'
                  exact hmerge)
            simp only [List.cons_append] at hout hPW
            refine ⟨A, M', q, ?_, ?_, hcsA, hcsM, hAlast, hMside', hMadj', hpA, hpM', hnA,
              hnM', ?_⟩
            · simp only [excludeLoop]
              rw [hfind]
              dsimp only
              rw [if_pos hguard, if_neg hmerge]
              rw [show SplayMap.insert km (bm.set side (-size.inline))
                  (L0 ++ (km, bm) :: ((mk, mb) :: (Mt ++ R0)))
                  = L0 ++ (km, bm.set side (-size.inline)) :: ((mk, mb) :: (Mt ++ R0)) from
                insert_at _ hL0keys]
              exact hout
            · obtain ⟨t0, ht0⟩ := hpre
              exact ⟨t0 ++ [(km, bm)], by rw [← List.append_assoc, ← ht0]⟩
            · refine pw_comp (le_of_lt hkmlp) ?_ ?_ hPW
              · exact (mid_spec_set hL0 hpL0 hlen hb1len hbm_pos hTcs hTpos hupd1).1
              · exact (mid_spec_set hL0 hpL0 hlen hb1len hbm_pos hTcs hTpos hupd1).2
      · -- the band is already deeper than the exclusion: stop
        refine ⟨L0 ++ [(km, bm)], M, lp, ?_, ⟨[], by simp⟩, hL, hM, ?_, hMside, hMadj,
          hpL, hpM, hnL, hnM, ?_⟩
        · simp only [excludeLoop]
          rw [hfind]
          dsimp only
          rw [if_neg hguard]
          simp
        · intro z hz
          rw [List.getLast?_concat] at hz
          have hz' : z = (km, bm) := by
            have := hz
            simp only [Option.mem_def, Option.some.injEq] at this
            exact this.symm
          subst hz'
          show size.inline < -(bm.get side)
          omega
        · have hLsh : L0 ++ (km, bm) :: (M ++ R0) = (L0 ++ [(km, bm)]) ++ (M ++ R0) := by
            simp
          constructor
          · intro y b' _ hb'
            simp only [List.append_assoc, List.singleton_append] at hb'
            exact ⟨b', hb', rfl, rfl⟩
          · intro y b' hy0 hy hb'
            simp only [List.append_assoc, List.singleton_append] at hb'
            have hget : ∀ kb ∈ L0 ++ [(km, bm)], kb.2.get side ≤ -size.inline := by
              intro kb h
              rcases List.mem_append.mp h with h | h
              · have hc := hcross kb h
                have := get_le_of_le hc.1 hc.2 side
                omega
              · rcases List.mem_singleton.mp h with rfl
                show bm.get side ≤ -size.inline
                omega
            rw [hLsh] at hb'
            rw [bandAt_append_in hL hy0 hy] at hb'
            obtain ⟨k', hk', _, _⟩ := bandAt_mem hb'
            refine ⟨b', ?_, ?_⟩
            · rw [hLsh, bandAt_append_in hL hy0 hy]
              exact hb'
            · exact (updLR_id (hget (k', b') hk')).symm

/-! ## Monotonicity: listwise versus pointwise -/

lemma getLast_append_ne {l1 l2 : SplayMap} (h : l2 ≠ []) :
    (l1 ++ l2).getLast? = l2.getLast? := List.getLast?_append_of_ne_nil l1 h

lemma getLast_cons_ne {a : Int × Band} {l : SplayMap} (h : l ≠ []) :
    (a :: l).getLast? = l.getLast? := by
  cases l with
  | nil => exact absurd rfl h
  | cons b t => simp [List.getLast?_cons_cons]

lemma contig_ranges {s e : Int} {l : SplayMap} (h : ContigSeg s e l) (hp : PosL l) :
    l.Pairwise (fun a c => a.1 + a.2.length ≤ c.1) := by
  induction l generalizing s with
  | nil => exact List.Pairwise.nil
  | cons x t ih =>
    obtain ⟨hx, ht⟩ := h
    have hpt : PosL t := fun kb hk => hp kb (List.mem_cons_of_mem _ hk)
    refine List.Pairwise.cons ?_ (ih ht hpt)
    intro c hc
    have hbnd := (contigSeg_mem_bounds ht hpt hc).1
    omega

lemma key_unique {l : SplayMap} (hr : l.Pairwise (fun a c => a.1 + a.2.length ≤ c.1))
    (hp : PosL l) {k : Int} {b b' : Band} (h1 : (k, b) ∈ l) (h2 : (k, b') ∈ l) : b = b' := by
  induction l with
  | nil => cases h1
  | cons x t ih =>
    obtain ⟨hhd, htl⟩ := List.pairwise_cons.mp hr
    have hpt : PosL t := fun kb hk => hp kb (List.mem_cons_of_mem _ hk)
    rcases List.mem_cons.mp h1 with hx1 | hm1 <;> rcases List.mem_cons.mp h2 with hx2 | hm2
    · exact congrArg Prod.snd (hx1.trans hx2.symm)
    · exfalso
      cases hx1
      have h3 : k + b.length ≤ k := hhd (k, b') hm2
      have h4 : (0 : Int) < b.length := hp (k, b) (List.mem_cons_self _ _)
      omega
    · exfalso
      cases hx2
      have h3 : k + b'.length ≤ k := hhd (k, b) hm1
      have h4 : (0 : Int) < b'.length := hp (k, b') (List.mem_cons_self _ _)
      omega
    · exact ih htl hpt hm1 hm2

lemma pairwise_at_keys {R : (Int × Band) → (Int × Band) → Prop} {l : SplayMap}
    (hR : l.Pairwise R) (hr : l.Pairwise (fun a c => a.1 + a.2.length ≤ c.1))
    (hp : PosL l) {k1 k2 : Int} {b1 b2 : Band} (h1 : (k1, b1) ∈ l) (h2 : (k2, b2) ∈ l)
    (hlt : k1 < k2) : R (k1, b1) (k2, b2) := by
  induction l with
  | nil => cases h1
  | cons x t ih =>
    obtain ⟨hRhd, hRtl⟩ := List.pairwise_cons.mp hR
    obtain ⟨hrhd, hrtl⟩ := List.pairwise_cons.mp hr
    have hpt : PosL t := fun kb hk => hp kb (List.mem_cons_of_mem _ hk)
    rcases List.mem_cons.mp h1 with hx1 | hm1
    · cases hx1
      rcases List.mem_cons.mp h2 with hx2 | hm2
      · exfalso
        injection hx2 with ha hb
        omega
      · exact hRhd (k2, b2) hm2
    · rcases List.mem_cons.mp h2 with hx2 | hm2
      · exfalso
        cases hx2
        have h3 : k2 + b2.length ≤ k1 := hrhd (k1, b1) hm1
        have h4 : (0 : Int) < b2.length := hp (k2, b2) (List.mem_cons_self _ _)
        omega
      · exact ih hRtl hrtl hpt hm1 hm2

lemma monoL_pointwise {s e : Int} {l : SplayMap} (hc : ContigSeg s e l) (hp : PosL l)
    (hm : MonoL l) {y1 y2 : Int} {b1 b2 : Band} (hle : y1 ≤ y2)
    (hb1 : bandAt l y1 = some b1) (hb2 : bandAt l y2 = some b2) :
    b1.left ≤ b2.left ∧ b1.right ≤ b2.right := by
  obtain ⟨k1, hm1, hk11, hk12⟩ := bandAt_mem hb1
  obtain ⟨k2, hm2, hk21, hk22⟩ := bandAt_mem hb2
  have hr := contig_ranges hc hp
  rcases lt_trichotomy k1 k2 with h | h | h
  · exact pairwise_at_keys hm hr hp hm1 hm2 h
  · subst h
    have hbb := key_unique hr hp hm1 hm2
    subst hbb
    exact ⟨le_refl _, le_refl _⟩
  · exfalso
    have h3 : k2 + b2.length ≤ k1 := pairwise_at_keys hr hr hp hm2 hm1 h
    omega

lemma monoL_of_pointwise {E : Int} {l : SplayMap} :
    ∀ s, ContigSeg s E l → PosL l →
      (∀ y1 y2 b1 b2, s ≤ y1 → y1 ≤ y2 → bandAt l y1 = some b1 → bandAt l y2 = some b2 →
        b1.left ≤ b2.left ∧ b1.right ≤ b2.right) →
      MonoL l := by
  induction l with
  | nil => intro s _ _ _; exact List.Pairwise.nil
  | cons x t ih =>
    intro s hc hp hpt
    obtain ⟨hx, htc⟩ := hc
    obtain ⟨hxp, htp⟩ := posL_cons.mp hp
    refine List.Pairwise.cons ?_ (ih (s + x.2.length) htc htp ?_)
    · rintro ⟨kz, bz⟩ hz
      have hbx : bandAt (x :: t) x.1 = some x.2 := by
        rw [bandAt_cons, if_pos ⟨le_refl _, by omega⟩]
      have hbz : bandAt (x :: t) kz = some bz :=
        bandAt_key (show ContigSeg s E (x :: t) from ⟨hx, htc⟩) hp
          (List.mem_cons_of_mem _ hz)
      have hkz : s + x.2.length ≤ kz := (contigSeg_mem_bounds htc htp hz).1
      exact hpt x.1 kz x.2 bz (le_of_eq hx.symm) (by omega) hbx hbz
    · intro y1 y2 b1 b2 hy1 hy12 h1 h2
      have h1' : bandAt (x :: t) y1 = some b1 := by
        rw [bandAt_cons, if_neg (by omega)]
        exact h1
      have h2' : bandAt (x :: t) y2 = some b2 := by
        rw [bandAt_cons, if_neg (by omega)]
        exact h2
      exact hpt y1 y2 b1 b2 (by omega) hy12 h1' h2'

lemma updLR_le (side : Side) (m : Int) (p : Int × Int) :
    (updLR side m p).1 ≤ p.1 ∧ (updLR side m p).2 ≤ p.2 := by
  cases side
  · exact ⟨min_le_left _ _, le_refl _⟩
  · exact ⟨le_refl _, min_le_left _ _⟩

lemma updLR_mono (side : Side) (m : Int) {a1 a2 q1 q2 : Int} (h1 : a1 ≤ q1) (h2 : a2 ≤ q2) :
    (updLR side m (a1, a2)).1 ≤ (updLR side m (q1, q2)).1 ∧
      (updLR side m (a1, a2)).2 ≤ (updLR side m (q1, q2)).2 := by
  cases side
  · exact ⟨min_le_min h1 (le_refl _), h2⟩
  · exact ⟨h1, min_le_min h2 (le_refl _)⟩

/-- `ChainGood S m`: whenever two adjacent bands of `m` carry equal
`(left, right)` inset pairs, the block position of the lower one satisfies
`S`. -/
def ChainGood (S : Int → Prop) (m : SplayMap) : Prop :=
  m.Chain' (fun x y => (x.2.left = y.2.left ∧ x.2.right = y.2.right) → S y.1)

/-- Everything `exclude` needs to know about the state after its `split`
call: the store decomposes at `pos` into an upper part `L` and a lower part
`R0` whose first band starts exactly at `pos`; all structural invariants
survive, the `(left, right)` pair at every position is unchanged, and the
only possibly-new adjacency of equal inset pairs is at `pos` itself. -/
lemma split_state {e : Exclusions} (hInv : Inv e) {pos : Int} {e1 : Exclusions}
    (h1 : 0 ≤ pos) (h2 : pos < MAX_AU) (hs : e.split pos = some e1) :
    ∃ L R0, e1.bands = L ++ R0 ∧ e1.inline_size = e.inline_size ∧
      ContigSeg 0 pos L ∧ ContigSeg pos MAX_AU R0 ∧
      PosL L ∧ PosL R0 ∧ NonposL L ∧ NonposL R0 ∧ MonoL L ∧ MonoL e1.bands ∧
      R0 ≠ [] ∧ (∀ kb ∈ R0.head?, kb.1 = pos) ∧
      (∀ kb ∈ (L ++ R0).getLast?, kb.2.left = 0 ∧ kb.2.right = 0) ∧
      (∀ y b', bandAt e1.bands y = some b' →
        ∃ b, bandAt e.bands y = some b ∧ b'.left = b.left ∧ b'.right = b.right) ∧
      (∀ S0, ChainGood S0 e.bands → ChainGood (fun p => S0 p ∨ p = pos) e1.bands) := by
  obtain ⟨hcs, hps, hns, hms, hsz⟩ := hInv
  obtain ⟨P, k, b, S, hdec, hk1, hk2, hP, hS, hcase⟩ := split_spec hcs hps h1 h2
  have hPp : PosL P := by rw [hdec] at hps; exact (posL_append.mp hps).1
  have hSp : PosL S := by rw [hdec] at hps; exact (posL_cons.mp (posL_append.mp hps).2).2
  have hbp : (0 : Int) < b.length := by
    rw [hdec] at hps
    exact (posL_cons.mp (posL_append.mp hps).2).1
  have hPn : NonposL P := by rw [hdec] at hns; exact (nonposL_append.mp hns).1
  have hSn : NonposL S := by
    rw [hdec] at hns
    exact (nonposL_cons.mp (nonposL_append.mp hns).2).2
  have hbn : b.left ≤ 0 ∧ b.right ≤ 0 := by
    rw [hdec] at hns
    exact (nonposL_cons.mp (nonposL_append.mp hns).2).1
  rw [hdec] at hms hsz
  rcases hcase with ⟨hpk, hsplit⟩ | ⟨hkpos, hsplit⟩
  · -- the split point is already a band boundary: the store is unchanged
    subst hpk
    rw [hsplit] at hs
    have he1 : e1 = ⟨P ++ (pos, b) :: S, e.inline_size⟩ := by cases hs; rfl
    refine ⟨P, (pos, b) :: S, by rw [he1], by rw [he1], hP, ⟨rfl, hS⟩,
      hPp, posL_cons.mpr ⟨hbp, hSp⟩, hPn, nonposL_cons.mpr ⟨hbn, hSn⟩,
      hms.sublist (List.sublist_append_left _ _), by rw [he1]; exact hms,
      by simp, ?_, hsz, ?_, ?_⟩
    · intro kb hk
      simp only [List.head?_cons, Option.mem_def, Option.some.injEq] at hk
      rw [← hk]
    · intro y b' hb'
      rw [he1] at hb'
      refine ⟨b', ?_, rfl, rfl⟩
      rw [hdec]
      exact hb'
    · intro S0 h0
      rw [hdec] at h0
      rw [he1]
      exact h0.imp (fun a c h' hlr => Or.inl (h' hlr))
  · -- a genuine split at `pos`
    rw [hsplit] at hs
    have he1 : e1 = ⟨P ++ (k, (⟨b.left, b.right, pos - k⟩ : Band)) ::
        (pos, (⟨b.left, b.right, k + b.length - pos⟩ : Band)) :: S, e.inline_size⟩ := by
      cases hs; rfl
    have hU : ContigSeg k pos [(k, (⟨b.left, b.right, pos - k⟩ : Band))] :=
      ⟨rfl, by show k + (pos - k) = pos; omega⟩
    have hL : ContigSeg 0 pos (P ++ [(k, (⟨b.left, b.right, pos - k⟩ : Band))]) :=
      contigSeg_append hP hU
    have hR : ContigSeg pos MAX_AU
        ((pos, (⟨b.left, b.right, k + b.length - pos⟩ : Band)) :: S) := by
      refine ⟨rfl, ?_⟩
      show ContigSeg (pos + (k + b.length - pos)) MAX_AU S
      rw [show pos + (k + b.length - pos) = k + b.length by omega]
      exact hS
    have hLp : PosL (P ++ [(k, (⟨b.left, b.right, pos - k⟩ : Band))]) := by
      refine posL_append.mpr ⟨hPp, ?_⟩
      intro kb hk
      rcases List.mem_singleton.mp hk with rfl
      show (0 : Int) < pos - k
      omega
    have hRp : PosL ((pos, (⟨b.left, b.right, k + b.length - pos⟩ : Band)) :: S) := by
      refine posL_cons.mpr ⟨?_, hSp⟩
      show (0 : Int) < k + b.length - pos
      omega
    have hLn : NonposL (P ++ [(k, (⟨b.left, b.right, pos - k⟩ : Band))]) := by
      refine nonposL_append.mpr ⟨hPn, ?_⟩
      intro kb hk
      rcases List.mem_singleton.mp hk with rfl
      exact hbn
    have hRn : NonposL ((pos, (⟨b.left, b.right, k + b.length - pos⟩ : Band)) :: S) :=
      nonposL_cons.mpr ⟨hbn, hSn⟩
    have hmono1 : MonoL (P ++ (k, (⟨b.left, b.right, pos - k⟩ : Band)) ::
        (pos, (⟨b.left, b.right, k + b.length - pos⟩ : Band)) :: S) := by
      unfold MonoL at hms ⊢
      rw [List.pairwise_append] at hms ⊢
      obtain ⟨hmp, hmcs, hmx⟩ := hms
      obtain ⟨hmhd, hmS⟩ := List.pairwise_cons.mp hmcs
      refine ⟨hmp, ?_, ?_⟩
      · refine List.pairwise_cons.mpr ⟨?_, List.pairwise_cons.mpr ⟨?_, hmS⟩⟩
        · intro y hy
          rcases List.mem_cons.mp hy with rfl | hy'
          · exact ⟨le_refl _, le_refl _⟩
          · exact hmhd y hy'
        · intro y hy
          exact hmhd y hy
      · intro a ha y hy
        rcases List.mem_cons.mp hy with rfl | hy'
        · exact hmx a ha (k, b) (List.mem_cons_self _ _)
        · rcases List.mem_cons.mp hy' with rfl | hy''
          · exact hmx a ha (k, b) (List.mem_cons_self _ _)
          · exact hmx a ha y (List.mem_cons_of_mem _ hy'')
    have hT : ContigSeg 0 MAX_AU ((P ++ [(k, (⟨b.left, b.right, pos - k⟩ : Band))]) ++
        (pos, (⟨b.left, b.right, k + b.length - pos⟩ : Band)) :: S) :=
      contigSeg_append hL hR
    have hTp : PosL ((P ++ [(k, (⟨b.left, b.right, pos - k⟩ : Band))]) ++
        (pos, (⟨b.left, b.right, k + b.length - pos⟩ : Band)) :: S) :=
      posL_append.mpr ⟨hLp, hRp⟩
    have hshape : P ++ (k, (⟨b.left, b.right, pos - k⟩ : Band)) ::
        (pos, (⟨b.left, b.right, k + b.length - pos⟩ : Band)) :: S
        = (P ++ [(k, (⟨b.left, b.right, pos - k⟩ : Band))]) ++
          (pos, (⟨b.left, b.right, k + b.length - pos⟩ : Band)) :: S := by
      simp
    refine ⟨P ++ [(k, (⟨b.left, b.right, pos - k⟩ : Band))],
      (pos, (⟨b.left, b.right, k + b.length - pos⟩ : Band)) :: S,
      by rw [he1]; exact hshape, by rw [he1],
      hL, hR, hLp, hRp, hLn, hRn,
      hmono1.sublist ((List.append_sublist_append_left P).2 (by simp)),
      by rw [he1]; exact hmono1,
      by simp, ?_, ?_, ?_, ?_⟩
    · intro kb hk
      simp only [List.head?_cons, Option.mem_def, Option.some.injEq] at hk
      rw [← hk]
    · -- the sentinel's insets survive the split
      intro kb hk
      rw [getLast_append_ne (by simp)] at hk
      cases S with
      | nil =>
        simp only [List.getLast?_singleton, Option.mem_def, Option.some.injEq] at hk
        have hbz : b.left = 0 ∧ b.right = 0 := by
          refine hsz (k, b) ?_
          rw [Option.mem_def, getLast_append_ne (by simp)]
          simp
        rw [← hk]
        exact hbz
      | cons s0 St =>
        rw [getLast_cons_ne (by simp)] at hk
        refine hsz kb ?_
        rw [Option.mem_def, getLast_append_ne (by simp), getLast_cons_ne (by simp)]
        exact hk
    · -- the `(left, right)` pair at every position is unchanged
      intro y b' hb'
      rw [he1] at hb'
      rw [hdec]
      by_cases hyP : 0 ≤ y ∧ y < k
      · rw [show (bandAt (P ++ (k, (⟨b.left, b.right, pos - k⟩ : Band)) ::
            (pos, (⟨b.left, b.right, k + b.length - pos⟩ : Band)) :: S) y : Option Band)
            = bandAt P y from bandAt_append_in hP hyP.1 hyP.2] at hb'
        refine ⟨b', ?_, rfl, rfl⟩
        rw [bandAt_append_in hP hyP.1 hyP.2]
        exact hb'
      · by_cases hyb : k ≤ y ∧ y < k + b.length
        · rw [bandAt_append_out hP hPp (by omega), bandAt_cons] at hb'
          rw [bandAt_append_out hP hPp (by omega), bandAt_cons, if_pos ⟨hyb.1, hyb.2⟩]
          by_cases hyc : y < pos
          · rw [if_pos ⟨hyb.1, by show y < k + (pos - k); omega⟩] at hb'
            injection hb' with hb'
            rw [← hb']
            exact ⟨b, rfl, rfl, rfl⟩
          · rw [if_neg (by show ¬(k ≤ y ∧ y < k + (pos - k)); omega), bandAt_cons,
              if_pos ⟨by omega, by show y < pos + (k + b.length - pos); omega⟩] at hb'
            injection hb' with hb'
            rw [← hb']
            exact ⟨b, rfl, rfl, rfl⟩
        · by_cases hyS : k + b.length ≤ y ∧ y < MAX_AU
          · rw [hshape, bandAt_append_out hL hLp (by omega), bandAt_cons,
              if_neg (by
                show ¬(pos ≤ y ∧ y < pos + (k + b.length - pos))
                omega)] at hb'
            have hLo : ContigSeg 0 (k + b.length) (P ++ [(k, b)]) :=
              contigSeg_append hP (show ContigSeg k (k + b.length) [(k, b)] from ⟨rfl, rfl⟩)
            have hLop : PosL (P ++ [(k, b)]) := by
              refine posL_append.mpr ⟨hPp, ?_⟩
              intro kb hk
              rcases List.mem_singleton.mp hk with rfl
              exact hbp
            rw [show P ++ (k, b) :: S = (P ++ [(k, b)]) ++ S by simp,
              bandAt_append_out hLo hLop (by omega)]
            exact ⟨b', hb', rfl, rfl⟩
          · exfalso
            rw [hshape] at hb'
            rw [bandAt_none_of_out hT hTp (by omega)] at hb'
            cases hb'
    · -- adjacent equal inset pairs are created only at `pos`
      intro S0 h0
      rw [hdec] at h0
      rw [he1]
      unfold ChainGood at h0 ⊢
      rw [List.chain'_append] at h0
      rw [hshape, List.chain'_append]
      obtain ⟨hcP, hcS, hcx⟩ := h0
      rw [List.chain'_cons'] at hcS
      obtain ⟨hcS1, hcS2⟩ := hcS
      refine ⟨?_, ?_, ?_⟩
      · rw [List.chain'_append]
        refine ⟨hcP.imp (fun a c h' hlr => Or.inl (h' hlr)), by simp, ?_⟩
        intro x hx y hy
        simp only [List.head?_cons, Option.mem_def, Option.some.injEq] at hy
        rw [← hy]
        intro hlr
        exact Or.inl (hcx x hx (k, b) (by simp) hlr)
      · rw [List.chain'_cons']
        constructor
        · intro y hy hlr
          exact Or.inl (hcS1 y hy hlr)
        · exact hcS2.imp (fun a c h' hlr => Or.inl (h' hlr))
      · intro x hx y hy
        rw [getLast_append_ne (by simp)] at hx
        simp only [List.getLast?_singleton, Option.mem_def, Option.some.injEq] at hx
        simp only [List.head?_cons, Option.mem_def, Option.some.injEq] at hy
        rw [← hx, ← hy]
        intro hlr
        exact Or.inr rfl

/-- The full specification of one `exclude` call on an invariant-satisfying
state: the invariants survive, the zone width is unchanged, at or below
`size.block` every band keeps its insets, above it every band's insets are
deepened by `updLR`, and the only possibly-new adjacency of equal inset
pairs is at block position `size.block`. -/
lemma exclude_spec {e e' : Exclusions} {side : Side} {z : Size}
    (hInv : Inv e) (hi : 0 ≤ z.inline) (hb : 0 ≤ z.block)
    (hx : e.exclude side z = some e') :
    Inv e' ∧ e'.inline_size = e.inline_size ∧
    (∀ y b', z.block ≤ y → bandAt e'.bands y = some b' →
       ∃ c, bandAt e.bands y = some c ∧ b'.left = c.left ∧ b'.right = c.right) ∧
    (∀ y b', 0 ≤ y → y < z.block → bandAt e'.bands y = some b' →
       ∃ c, bandAt e.bands y = some c ∧
         (b'.left, b'.right) = updLR side z.inline (c.left, c.right)) ∧
    (∀ S0, ChainGood S0 e.bands → ChainGood (fun p => S0 p ∨ p = z.block) e'.bands) := by
  unfold Exclusions.exclude at hx
  by_cases hz : z.inline = 0 ∨ z.block = 0
  · -- the degenerate no-op case
    rw [if_pos hz] at hx
    cases hx
    refine ⟨hInv, rfl, ?_, ?_, ?_⟩
    · intro y b' _ hb'
      exact ⟨b', hb', rfl, rfl⟩
    · intro y b' hy0 hy hb'
      rcases hz with hz | hz
      · refine ⟨b', hb', ?_⟩
        obtain ⟨kk, hm, _, _⟩ := bandAt_mem hb'
        have hnp : b'.left ≤ 0 ∧ b'.right ≤ 0 := hInv.2.2.1 (kk, b') hm
        cases side
        · show (b'.left, b'.right) = (min b'.left (-z.inline), b'.right)
          rw [hz, neg_zero, min_eq_left hnp.1]
        · show (b'.left, b'.right) = (b'.left, min b'.right (-z.inline))
          rw [hz, neg_zero, min_eq_left hnp.2]
      · omega
    · intro S0 h0
      exact h0.imp (fun a c h' hlr => Or.inl (h' hlr))
  · rw [if_neg hz] at hx
    push_neg at hz
    have hi' : (0 : Int) < z.inline := lt_of_le_of_ne hi (Ne.symm hz.1)
    have hb2 : (0 : Int) < z.block := lt_of_le_of_ne hb (Ne.symm hz.2)
    cases hsplit : e.split z.block with
    | none =>
      rw [hsplit] at hx
      exact Option.noConfusion hx
    | some e1 =>
      rw [hsplit] at hx
      dsimp only at hx
      have hblt : z.block < MAX_AU := by
        by_contra hge
        push_neg at hge
        have hnone : e.split z.block = none := by
          unfold Exclusions.split
          rw [get_with_none_of_out hInv.1 hInv.2.1
            (fun kk bb => splitCmp_eq_iff z.block kk bb) (Or.inr hge)]
        rw [hnone] at hsplit
        exact Option.noConfusion hsplit
      obtain ⟨L, R0, hdecomp, hw, hLc, hR0c, hLp, hR0p, hLn, hR0n, hLm, hMm1,
        hR0ne, hR0hd, hsent1, hid1, hcg1⟩ := split_state hInv hb hblt hsplit
      rw [hdecomp] at hx
      have he' : e' = ⟨excludeLoop side z ((L ++ R0).length + 1) (L ++ R0) z.block none,
          e1.inline_size⟩ := (Option.some.inj hx).symm
      obtain ⟨A, M', q, hloop, ⟨t, hAt⟩, hAc, hMc', hAlast, hMside', hMadj',
          hAp, hMp', hAn, hMn', hPW⟩ :=
        excludeLoop_spec side z hi' z.block hR0c hR0p ((L ++ R0).length + 1) L [] z.block none
          (by rw [List.length_append]; omega)
          hLc (show ContigSeg z.block z.block [] from rfl)
          hLp (fun kb hk => absurd hk (List.not_mem_nil _))
          hLn (fun kb hk => absurd hk (List.not_mem_nil _))
          hLm rfl (fun kb hk => absurd hk (List.not_mem_nil _))
          (by unfold AdjDist; simp)
      have hEb : e'.bands = A ++ (M' ++ R0) := by rw [he']; exact hloop
      have hEw : e'.inline_size = e.inline_size := by rw [he']; exact hw
      have hNc : ContigSeg 0 MAX_AU (A ++ (M' ++ R0)) :=
        contigSeg_append hAc (contigSeg_append hMc' hR0c)
      have hNp : PosL (A ++ (M' ++ R0)) :=
        posL_append.mpr ⟨hAp, posL_append.mpr ⟨hMp', hR0p⟩⟩
      have hNn : NonposL (A ++ (M' ++ R0)) :=
        nonposL_append.mpr ⟨hAn, nonposL_append.mpr ⟨hMn', hR0n⟩⟩
      have hE1c : ContigSeg 0 MAX_AU e1.bands := by
        rw [hdecomp]
        exact contigSeg_append hLc hR0c
      have hE1p : PosL e1.bands := by
        rw [hdecomp]
        exact posL_append.mpr ⟨hLp, hR0p⟩
      have hup : ∀ y b', z.block ≤ y → bandAt (A ++ (M' ++ R0)) y = some b' →
          ∃ c, bandAt e1.bands y = some c ∧ b'.left = c.left ∧ b'.right = c.right := by
        intro y b' hy hb'
        obtain ⟨c, hc, hl, hr⟩ := hPW.1 y b' hy hb'
        refine ⟨c, ?_, hl, hr⟩
        rw [hdecomp]
        exact hc
      have hlow : ∀ y b', 0 ≤ y → y < z.block → bandAt (A ++ (M' ++ R0)) y = some b' →
          ∃ c, bandAt e1.bands y = some c ∧
            (b'.left, b'.right) = updLR side z.inline (c.left, c.right) := by
        intro y b' hy0 hy hb'
        obtain ⟨c, hc, hpair⟩ := hPW.2 y b' hy0 hy hb'
        refine ⟨c, ?_, hpair⟩
        rw [hdecomp]
        exact hc
      have hmono : MonoL (A ++ (M' ++ R0)) := by
        refine monoL_of_pointwise 0 hNc hNp ?_
        intro y1 y2 b1 b2 hy1 hy12 h1 h2
        by_cases hc1 : z.block ≤ y1
        · obtain ⟨c1, hc1e, hl1, hr1⟩ := hup y1 b1 hc1 h1
          obtain ⟨c2, hc2e, hl2, hr2⟩ := hup y2 b2 (by omega) h2
          have hm := monoL_pointwise hE1c hE1p hMm1 hy12 hc1e hc2e
          rw [hl1, hr1, hl2, hr2]
          exact hm
        · push_neg at hc1
          obtain ⟨c1, hc1e, hp1⟩ := hlow y1 b1 hy1 hc1 h1
          have e1l : b1.left = (updLR side z.inline (c1.left, c1.right)).1 :=
            congrArg Prod.fst hp1
          have e1r : b1.right = (updLR side z.inline (c1.left, c1.right)).2 :=
            congrArg Prod.snd hp1
          have hle1 : (updLR side z.inline (c1.left, c1.right)).1 ≤ c1.left ∧
              (updLR side z.inline (c1.left, c1.right)).2 ≤ c1.right :=
            updLR_le side z.inline (c1.left, c1.right)
          by_cases hc2 : z.block ≤ y2
          · obtain ⟨c2, hc2e, hl2, hr2⟩ := hup y2 b2 hc2 h2
            have hm := monoL_pointwise hE1c hE1p hMm1 hy12 hc1e hc2e
            constructor
            · rw [e1l, hl2]
              omega
            · rw [e1r, hr2]
              omega
          · push_neg at hc2
            obtain ⟨c2, hc2e, hp2⟩ := hlow y2 b2 (by omega) hc2 h2
            have e2l : b2.left = (updLR side z.inline (c2.left, c2.right)).1 :=
              congrArg Prod.fst hp2
            have e2r : b2.right = (updLR side z.inline (c2.left, c2.right)).2 :=
              congrArg Prod.snd hp2
            have hm := monoL_pointwise hE1c hE1p hMm1 hy12 hc1e hc2e
            have hmm := updLR_mono side z.inline hm.1 hm.2
            constructor
            · rw [e1l, e2l]
              exact hmm.1
            · rw [e1r, e2r]
              exact hmm.2
      have hMR0ne : M' ++ R0 ≠ [] := fun hcon => hR0ne (List.append_eq_nil.mp hcon).2
      have hsent : SentZ (A ++ (M' ++ R0)) := by
        intro kb hk
        rw [Option.mem_def, getLast_append_ne hMR0ne, getLast_append_ne hR0ne] at hk
        refine hsent1 kb ?_
        rw [Option.mem_def, getLast_append_ne hR0ne]
        exact hk
      refine ⟨⟨?_, ?_, ?_, ?_, ?_⟩, hEw, ?_, ?_, ?_⟩
      · rw [hEb]
        exact hNc
      · rw [hEb]
        exact hNp
      · rw [hEb]
        exact hNn
      · rw [hEb]
        exact hmono
      · rw [hEb]
        exact hsent
      · intro y b' hy hb'
        rw [hEb] at hb'
        obtain ⟨c1, hc1, hl1, hr1⟩ := hup y b' hy hb'
        obtain ⟨c, hc, hl, hr⟩ := hid1 y c1 hc1
        exact ⟨c, hc, by rw [hl1, hl], by rw [hr1, hr]⟩
      · intro y b' hy0 hy hb'
        rw [hEb] at hb'
        obtain ⟨c1, hc1, hpair⟩ := hlow y b' hy0 hy hb'
        obtain ⟨c, hc, hl, hr⟩ := hid1 y c1 hc1
        refine ⟨c, hc, ?_⟩
        rw [hpair, hl, hr]
      · intro S0 h0
        have hG := hcg1 S0 h0
        rw [hdecomp] at hG
        have hGz : S0 z.block ∨ z.block = z.block := Or.inr rfl
        rw [hEb]
        unfold ChainGood at hG ⊢
        obtain ⟨hGL, hGR0, hGx⟩ := List.chain'_append.mp hG
        have hchainA := by
          rw [hAt] at hGL
          exact (List.chain'_append.mp hGL).1
        have hhead : ∀ yh ∈ (M' ++ R0).head?,
            yh.2.get side = -z.inline ∨ yh.1 = z.block := by
          cases M' with
          | nil =>
            intro yh hy
            exact Or.inr (hR0hd yh hy)
          | cons m0 Mt =>
            intro yh hy
            simp only [List.cons_append, List.head?_cons, Option.mem_def,
              Option.some.injEq] at hy
            refine Or.inl ?_
            rw [← hy]
            exact hMside' m0 (List.mem_cons_self _ _)
        refine List.chain'_append.mpr ⟨hchainA,
          List.chain'_append.mpr ⟨?_, hGR0, ?_⟩, ?_⟩
        · exact hMadj'.imp (fun a c hne hlr => absurd hlr hne)
        · intro x hx yh hy hlr
          show S0 yh.1 ∨ yh.1 = z.block
          rw [hR0hd yh hy]
          exact hGz
        · intro x hx yh hy hlr
          show S0 yh.1 ∨ yh.1 = z.block
          rcases hhead yh hy with h | h
          · exfalso
            have h1 := hAlast x hx
            have h3 : x.2.get side = yh.2.get side := by
              cases side
              · exact hlr.1
              · exact hlr.2
            omega
          · rw [h]
            exact hGz

/-! ## The invariant holds in every reachable state -/

lemma inv_new (w : Int) : Inv (Exclusions.new w) := by
  refine ⟨⟨rfl, by show (0 : Int) + MAX_AU = MAX_AU; omega⟩, ?_, ?_, ?_, ?_⟩
  · intro kb hk
    rcases List.mem_singleton.mp hk with rfl
    show (0 : Int) < MAX_AU
    unfold MAX_AU
    omega
  · intro kb hk
    rcases List.mem_singleton.mp hk with rfl
    exact ⟨le_refl 0, le_refl 0⟩
  · exact List.pairwise_singleton _ _
  · intro kb hk
    have hk' : some ((0 : Int), (⟨0, 0, MAX_AU⟩ : Band)) = some kb := hk
    injection hk' with hk'
    rw [← hk']
    exact ⟨rfl, rfl⟩

lemma reaches_inv {e : Exclusions} (h : Reaches e) : Inv e := by
  induction h with
  | base w => exact inv_new w
  | place_step e side size h ih => exact ih
  | exclude_step e e' side size hi hb h hx ih => exact (exclude_spec ih hi hb hx).1

lemma contig_keys_lt {s e : Int} {l : SplayMap} (h : ContigSeg s e l) (hp : PosL l) :
    l.Pairwise (fun a c => a.1 < c.1) := by
  have hr := contig_ranges h hp
  refine hr.imp_of_mem ?_
  intro a c ha hc hle
  have := hp a ha
  omega

lemma contig_chain {s e : Int} {l : SplayMap} (h : ContigSeg s e l) :
    l.Chain' (fun a c => a.1 + a.2.length = c.1) := by
  induction l generalizing s with
  | nil => simp
  | cons x t ih =>
    obtain ⟨hx, ht⟩ := h
    rw [List.chain'_cons']
    refine ⟨?_, ih ht⟩
    intro yh hy
    cases t with
    | nil => cases hy
    | cons y0 tt =>
      simp only [List.head?_cons, Option.mem_def, Option.some.injEq] at hy
      obtain ⟨hy0, _⟩ := ht
      rw [← hy]
      omega

lemma contig_last {s e : Int} {l : SplayMap} (h : ContigSeg s e l) :
    ∀ kb ∈ l.getLast?, kb.1 + kb.2.length = e := by
  induction l generalizing s with
  | nil => intro kb hk; cases hk
  | cons x t ih =>
    obtain ⟨hx, ht⟩ := h
    intro kb hk
    cases t with
    | nil =>
      simp only [List.getLast?_singleton, Option.mem_def, Option.some.injEq] at hk
      rw [← hk]
      have he : s + x.2.length = e := ht
      omega
    | cons y0 tt =>
      rw [getLast_cons_ne (by simp)] at hk
      exact ih ht kb hk

/-- C6: after `new` and after every `place`/`exclude` call with non-negative
sizes, the band map has an entry at key `0` (its first), its keys are
strictly ascending, the bands tile the block axis contiguously (each band's
start plus its length is the key of the next) and the last band's start
plus its length equals `MAX_AU`. -/
theorem band_map_structure {e : Exclusions} (h : Reaches e) :
    e.bands.head?.map Prod.fst = some 0 ∧
    e.bands.Pairwise (fun a c => a.1 < c.1) ∧
    e.bands.Chain' (fun a c => a.1 + a.2.length = c.1) ∧
    e.bands.getLast?.map (fun kb => kb.1 + kb.2.length) = some MAX_AU := by
  obtain ⟨hc, hp, _, _, _⟩ := reaches_inv h
  refine ⟨?_, contig_keys_lt hc hp, contig_chain hc, ?_⟩
  · cases hb : e.bands with
    | nil =>
      exfalso
      rw [hb] at hc
      have h0 : (0 : Int) = MAX_AU := hc
      unfold MAX_AU at h0
      omega
    | cons x t =>
      rw [hb] at hc
      obtain ⟨hx, _⟩ := hc
      simp [hx]
  · cases hgl : e.bands.getLast? with
    | none =>
      exfalso
      rw [List.getLast?_eq_none] at hgl
      rw [hgl] at hc
      have h0 : (0 : Int) = MAX_AU := hc
      unfold MAX_AU at h0
      omega
    | some z =>
      have hz := contig_last hc z hgl
      simp [hz]

/-- Witness for C6 at the freshly created state. -/
theorem band_map_structure_witness :
    (Exclusions.new 100).bands.head?.map Prod.fst = some 0 ∧
    (Exclusions.new 100).bands.Pairwise (fun a c => a.1 < c.1) ∧
    (Exclusions.new 100).bands.Chain' (fun a c => a.1 + a.2.length = c.1) ∧
    (Exclusions.new 100).bands.getLast?.map (fun kb => kb.1 + kb.2.length) = some MAX_AU :=
  band_map_structure (Reaches.base 100)

/-- C7: after `new` and after every `exclude` call with non-negative sizes,
every band of the map has `left ≤ 0` and `right ≤ 0`. -/
theorem bands_nonpos {e : Exclusions} (h : Reaches e) :
    ∀ kb ∈ e.bands, kb.2.left ≤ 0 ∧ kb.2.right ≤ 0 :=
  (reaches_inv h).2.2.1

/-- Witness for C7 at the freshly created state and its one band. -/
theorem bands_nonpos_witness :
    ((0 : Int), (⟨0, 0, MAX_AU⟩ : Band)).2.left ≤ 0 ∧
      ((0 : Int), (⟨0, 0, MAX_AU⟩ : Band)).2.right ≤ 0 :=
  bands_nonpos (Reaches.base 100) (0, ⟨0, 0, MAX_AU⟩) (List.mem_singleton.mpr rfl)

/-- C10 (implicit): in every reachable state the inset magnitude on each
side is non-increasing from top to bottom — for bands at keys `k1 < k2`,
`-left` and `-right` at `k1` dominate those at `k2` — so the available
inline size `W + left + right` is non-decreasing in key order, the
monotonicity the lower-bound search of `place` relies on. -/
theorem inset_monotone {e : Exclusions} (h : Reaches e) (k1 k2 : Int) (b1 b2 : Band)
    (h1 : (k1, b1) ∈ e.bands) (h2 : (k2, b2) ∈ e.bands) (hlt : k1 < k2) :
    -b2.left ≤ -b1.left ∧ -b2.right ≤ -b1.right ∧
      b1.available_size e.inline_size ≤ b2.available_size e.inline_size := by
  obtain ⟨hc, hp, _, hm, _⟩ := reaches_inv h
  have hr := contig_ranges hc hp
  have hrel : b1.left ≤ b2.left ∧ b1.right ≤ b2.right :=
    pairwise_at_keys hm hr hp h1 h2 hlt
  refine ⟨by omega, by omega, ?_⟩
  show e.inline_size + b1.left + b1.right ≤ e.inline_size + b2.left + b2.right
  omega

/-- Witness for C10 after one `exclude` call, comparing the two bands. -/
theorem inset_monotone_witness :
    -(⟨0, 0, 2147483627⟩ : Band).left ≤ -(⟨-50, 0, 20⟩ : Band).left ∧
      -(⟨0, 0, 2147483627⟩ : Band).right ≤ -(⟨-50, 0, 20⟩ : Band).right ∧
      (⟨-50, 0, 20⟩ : Band).available_size 100 ≤
        (⟨0, 0, 2147483627⟩ : Band).available_size 100 :=
  inset_monotone
    (Reaches.exclude_step (Exclusions.new 100)
      ⟨[(0, ⟨-50, 0, 20⟩), (20, ⟨0, 0, 2147483627⟩)], 100⟩ Side.Left ⟨50, 20⟩
      (by decide) (by decide) (Reaches.base 100) (by decide))
    0 20 ⟨-50, 0, 20⟩ ⟨0, 0, 2147483627⟩ (by decide) (by decide) (by decide)

/-! ## The `place` search -/

lemma cis_not_gt {k : Int} {b : Band} {size : Size} {W : Int} :
    ((match compare_inline_size k b size W with
      | Ordering.gt => false | _ => true) = true) ↔
      (size.inline ≤ b.available_size W ∨ k + b.length = MAX_AU) := by
  unfold compare_inline_size
  rcases lt_trichotomy size.inline (b.available_size W) with h | h | h
  · rw [compare_lt_iff_lt.mpr h]
    constructor
    · intro _
      exact Or.inl h.le
    · intro _
      rfl
  · rw [compare_eq_iff_eq.mpr h]
    constructor
    · intro _
      exact Or.inl (le_of_eq h)
    · intro _
      rfl
  · rw [compare_gt_iff_gt.mpr h]
    by_cases hs : k + b.length = MAX_AU
    · rw [if_pos hs]
      constructor
      · intro _
        exact Or.inr hs
      · intro _
        rfl
    · rw [if_neg hs]
      constructor
      · intro hcon
        exact Bool.noConfusion hcon
      · rintro (h2 | h2)
        · exact absurd h2 (not_le.mpr h)
        · exact absurd h2 hs

lemma cis_gt {k : Int} {b : Band} {size : Size} {W : Int} :
    ((match compare_inline_size k b size W with
      | Ordering.gt => false | _ => true) = false) ↔
      (b.available_size W < size.inline ∧ k + b.length ≠ MAX_AU) := by
  rw [Bool.eq_false_iff, Ne, cis_not_gt]
  constructor
  · intro h
    constructor
    · by_contra h2
      push_neg at h2
      exact h (Or.inl h2)
    · intro h2
      exact h (Or.inr h2)
  · rintro ⟨h1, h2⟩ (h3 | h3)
    · exact absurd h3 (not_le.mpr h1)
    · exact h2 h3

lemma find_decomp {p : Int × Band → Bool} : ∀ {l : SplayMap} {x : Int × Band},
    l.find? p = some x →
    ∃ l1 l2, l = l1 ++ x :: l2 ∧ (∀ y ∈ l1, p y = false) := by
  intro l
  induction l with
  | nil => intro x h; cases h
  | cons a t ih =>
    intro x h
    by_cases hpa : p a = true
    · rw [List.find?_cons_of_pos _ hpa] at h
      cases h
      exact ⟨[], t, rfl, fun y hy => absurd hy (List.not_mem_nil _)⟩
    · rw [List.find?_cons_of_neg _ (by simpa using hpa)] at h
      obtain ⟨l1, l2, hdec, hfail⟩ := ih h
      refine ⟨a :: l1, l2, by rw [hdec]; rfl, ?_⟩
      intro y hy
      rcases List.mem_cons.mp hy with rfl | hy'
      · simpa using hpa
      · exact hfail y hy'

lemma get_of_mem {l : SplayMap} (hr : l.Pairwise (fun a c => a.1 + a.2.length ≤ c.1))
    (hp : PosL l) {k : Int} {b : Band} (hm : (k, b) ∈ l) :
    SplayMap.get l k = some b := by
  induction l with
  | nil => cases hm
  | cons a t ih =>
    obtain ⟨hhd, htl⟩ := List.pairwise_cons.mp hr
    have hpt : PosL t := fun kb hk => hp kb (List.mem_cons_of_mem _ hk)
    rcases List.mem_cons.mp hm with rfl | hm'
    · unfold SplayMap.get
      rw [List.find?_cons_of_pos _ (by simp)]
      rfl
    · unfold SplayMap.get
      rw [List.find?_cons_of_neg _ (by
        have h1 : a.1 + a.2.length ≤ k := hhd (k, b) hm'
        have h2 : (0 : Int) < a.2.length := hp a (List.mem_cons_self _ _)
        simp only [beq_iff_eq]
        omega)]
      exact ih htl hpt hm'

lemma contig_self_nil {s : Int} {l : SplayMap} (h : ContigSeg s s l) (hp : PosL l) :
    l = [] := by
  cases l with
  | nil => rfl
  | cons x t =>
    exfalso
    obtain ⟨hx, ht⟩ := h
    have h1 : 0 < x.2.length := hp x (List.mem_cons_self _ _)
    have h2 := contigSeg_le ht (fun kb hk => hp kb (List.mem_cons_of_mem _ hk))
    omega

/-- C2: in every reachable state, `place` succeeds and selects the band with
the smallest starting block position whose available inline size
`W + left + right` is at least `size.inline`; if no band's available inline
size reaches `size.inline` it selects the final sentinel band (the band
whose start plus length equals `MAX_AU`). -/
theorem place_first_fit {e : Exclusions} (h : Reaches e) (side : Side) (size : Size)
    (hsz : 0 ≤ size.inline) :
    ∃ p, e.place side size = some p ∧
      ∃ k b, (k, b) ∈ e.bands ∧ p.origin.block = k ∧
        ((size.inline ≤ b.available_size e.inline_size ∧
           ∀ k' b', (k', b') ∈ e.bands →
             size.inline ≤ b'.available_size e.inline_size → k ≤ k') ∨
         ((∀ k' b', (k', b') ∈ e.bands →
             b'.available_size e.inline_size < size.inline) ∧
           k + b.length = MAX_AU)) := by
  obtain ⟨hc, hp, _, _, _⟩ := reaches_inv h
  have hr := contig_ranges hc hp
  cases hfind : SplayMap.lower_bound_with
      (fun band_block_start band =>
        compare_inline_size band_block_start band size e.inline_size) e.bands with
  | none =>
    exfalso
    unfold SplayMap.lower_bound_with at hfind
    rw [List.find?_eq_none] at hfind
    cases hbl : e.bands.getLast? with
    | none =>
      rw [List.getLast?_eq_none] at hbl
      rw [hbl] at hc
      have h0 : (0 : Int) = MAX_AU := hc
      unfold MAX_AU at h0
      omega
    | some z =>
      have hzmem : z ∈ e.bands := List.mem_of_mem_getLast? hbl
      have hzend := contig_last hc z hbl
      exact hfind z hzmem (cis_not_gt.mpr (Or.inr hzend))
  | some x =>
    obtain ⟨k, b⟩ := x
    have hfind' : e.bands.find? (fun kb =>
        match compare_inline_size kb.1 kb.2 size e.inline_size with
        | Ordering.gt => false | _ => true) = some (k, b) := hfind
    have hmem : (k, b) ∈ e.bands := List.mem_of_find?_eq_some hfind'
    have hptrue := List.find?_some hfind'
    obtain ⟨l1, l2, hdec, hfail⟩ := find_decomp hfind'
    have hget : SplayMap.get e.bands k = some b := get_of_mem hr hp hmem
    refine ⟨⟨⟨(match side with
        | Side.Left => -b.left
        | Side.Right => e.inline_size + b.right - size.inline), k⟩,
      b.available_size e.inline_size⟩, ?_, k, b, hmem, rfl, ?_⟩
    · unfold Exclusions.place
      rw [hfind]
      dsimp only
      rw [hget]
    · by_cases hfit : size.inline ≤ b.available_size e.inline_size
      · left
        refine ⟨hfit, ?_⟩
        intro k' b' hm' hf'
        rw [hdec] at hm'
        rcases List.mem_append.mp hm' with h1 | h2
        · exfalso
          have hok : (match compare_inline_size k' b' size e.inline_size with
              | Ordering.gt => false | _ => true) = true := cis_not_gt.mpr (Or.inl hf')
          have hff := hfail (k', b') h1
          exact Bool.noConfusion (hok.symm.trans hff)
        · rcases List.mem_cons.mp h2 with heq | h3
          · injection heq with ha hb2
            omega
          · rw [hdec] at hr
            have hcross : k + b.length ≤ k' :=
              (List.pairwise_cons.mp (List.pairwise_append.mp hr).2.1).1 (k', b') h3
            have hbpos : (0 : Int) < b.length := by
              rw [hdec] at hp
              exact (posL_cons.mp (posL_append.mp hp).2).1
            omega
      · right
        have hsent : k + b.length = MAX_AU := by
          rcases cis_not_gt.mp hptrue with h1 | h1
          · exact absurd h1 hfit
          · exact h1
        refine ⟨?_, hsent⟩
        have hl2 : l2 = [] := by
          rw [hdec] at hc hp
          obtain ⟨m, hm1, hm2⟩ := contigSeg_append_split hc
          obtain ⟨hkm, hm3⟩ := hm2
          have hkm' : k = m := hkm
          have hm3' : ContigSeg (m + b.length) MAX_AU l2 := hm3
          have hl2p : PosL l2 := (posL_cons.mp (posL_append.mp hp).2).2
          have heq : m + b.length = MAX_AU := by omega
          rw [heq] at hm3'
          exact contig_self_nil hm3' hl2p
        intro k' b' hm'
        by_contra hge
        push_neg at hge
        rw [hdec, hl2] at hm'
        rcases List.mem_append.mp hm' with h1 | h2
        · have hff := hfail (k', b') h1
          obtain ⟨hlt, _⟩ := cis_gt.mp hff
          exact absurd hge (not_le.mpr hlt)
        · rcases List.mem_cons.mp h2 with heq | h3
          · injection heq with ha hb2
            rw [hb2] at hge
            exact hfit hge
          · cases h3

/-- Witness for C2 at the freshly created state. -/
theorem place_first_fit_witness :
    ∃ p, (Exclusions.new 100).place Side.Left ⟨50, 10⟩ = some p ∧
      ∃ k b, (k, b) ∈ (Exclusions.new 100).bands ∧ p.origin.block = k ∧
        (((⟨50, 10⟩ : Size).inline ≤ b.available_size (Exclusions.new 100).inline_size ∧
           ∀ k' b', (k', b') ∈ (Exclusions.new 100).bands →
             (⟨50, 10⟩ : Size).inline ≤ b'.available_size (Exclusions.new 100).inline_size →
               k ≤ k') ∨
         ((∀ k' b', (k', b') ∈ (Exclusions.new 100).bands →
             b'.available_size (Exclusions.new 100).inline_size < (⟨50, 10⟩ : Size).inline) ∧
           k + b.length = MAX_AU)) :=
  place_first_fit (Reaches.base 100) Side.Left ⟨50, 10⟩ (by decide)

/-! ## Adjacent bands with equal inset pairs (C3) -/

lemma reachesH_reaches {hist : List (Side × Size)} {e : Exclusions}
    (h : ReachesH hist e) : Reaches e := by
  induction h with
  | base w => exact Reaches.base w
  | step hist e e' side size hi hb hr hx ih =>
    exact Reaches.exclude_step e e' side size hi hb ih hx

/-- C3 counterexample: from `new 100`, excluding `Left ⟨50, 20⟩` and then
`Left ⟨30, 10⟩` (all sizes non-negative) leaves the two adjacent bands at
keys `0` and `10` with the identical `(left, right)` pair `(-50, 0)` — the
second `exclude`'s `split` cut the first band at `10` and the walk stopped
without re-merging the halves. -/
theorem adjacent_equal_pairs_cex :
    ((Exclusions.new 100).exclude Side.Left ⟨50, 20⟩).bind
        (fun e1 => e1.exclude Side.Left ⟨30, 10⟩) =
      some ⟨[(0, ⟨-50, 0, 10⟩), (10, ⟨-50, 0, 10⟩), (20, ⟨0, 0, 2147483627⟩)], 100⟩ ∧
    ¬ List.Chain' (fun x y : Int × Band =>
        ¬(x.2.left = y.2.left ∧ x.2.right = y.2.right))
      [(0, ⟨-50, 0, 10⟩), (10, ⟨-50, 0, 10⟩), (20, ⟨0, 0, 2147483627⟩)] := by
  constructor
  · decide
  · intro hcon
    rw [List.chain'_cons] at hcon
    exact hcon.1 ⟨rfl, rfl⟩

/-- C3 (amended): after `new` and any sequence of `exclude` calls with
non-negative sizes, two adjacent bands may carry identical `(left, right)`
pairs, but only where the lower band of the pair starts at the `size.block`
of one of the `exclude` calls made (the boundary that call's `split` cut and
the walk did not re-merge); the original claim that no adjacent pair is ever
equal is refuted by `adjacent_equal_pairs_cex`. -/
theorem adjacent_equal_only_at_split {hist : List (Side × Size)} {e : Exclusions}
    (h : ReachesH hist e) :
    e.bands.Chain' (fun x y => (x.2.left = y.2.left ∧ x.2.right = y.2.right) →
      ∃ q ∈ hist, y.1 = q.2.block) := by
  induction h with
  | base w =>
    show List.Chain' _ [((0 : Int), (⟨0, 0, MAX_AU⟩ : Band))]
    exact List.chain'_singleton _
  | step hist e e' side size hi hb hr hx ih =>
    have hInv := reaches_inv (reachesH_reaches hr)
    have htrans := (exclude_spec hInv hi hb hx).2.2.2.2
    have hG' := htrans (fun p => ∃ q ∈ hist, p = q.2.block) ih
    refine List.Chain'.imp ?_ hG'
    intro a c h' hlr
    rcases h' hlr with ⟨q, hq, hqe⟩ | hpe
    · exact ⟨q, List.mem_cons_of_mem _ hq, hqe⟩
    · exact ⟨(side, size), List.mem_cons_self _ _, hpe⟩

/-- Witness for the amended C3 on the counterexample run itself. -/
theorem adjacent_equal_only_at_split_witness :
    ([(0, (⟨-50, 0, 10⟩ : Band)), (10, ⟨-50, 0, 10⟩),
        (20, ⟨0, 0, 2147483627⟩)] : SplayMap).Chain'
      (fun x y => (x.2.left = y.2.left ∧ x.2.right = y.2.right) →
        ∃ q ∈ [(Side.Left, (⟨30, 10⟩ : Size)), (Side.Left, (⟨50, 20⟩ : Size))],
          y.1 = q.2.block) :=
  adjacent_equal_only_at_split
    (ReachesH.step [(Side.Left, ⟨50, 20⟩)]
      ⟨[(0, ⟨-50, 0, 20⟩), (20, ⟨0, 0, 2147483627⟩)], 100⟩
      ⟨[(0, ⟨-50, 0, 10⟩), (10, ⟨-50, 0, 10⟩), (20, ⟨0, 0, 2147483627⟩)], 100⟩
      Side.Left ⟨30, 10⟩ (by decide) (by decide)
      (ReachesH.step [] (Exclusions.new 100)
        ⟨[(0, ⟨-50, 0, 20⟩), (20, ⟨0, 0, 2147483627⟩)], 100⟩
        Side.Left ⟨50, 20⟩ (by decide) (by decide) (ReachesH.base 100) (by decide))
      (by decide))

/-! ## The driver run: silhouette coverage and disjointness (C1) -/

lemma cover_preserved {W : Int} {e e' : Exclusions} {side : Side} {z : Size}
    (hInv : Inv e) (hzi : 0 ≤ z.inline) (hzb : 0 ≤ z.block)
    (hx : e.exclude side z = some e') {p : ExcludedArea}
    (hp : Cover W e p) : Cover W e' p := by
  intro y b' hy0 hy hb'
  by_cases hyc : y < z.block
  · obtain ⟨c, hc, hpair⟩ := (exclude_spec hInv hzi hzb hx).2.2.2.1 y b' hy0 hyc hb'
    have hcp := hp y c hy0 hy hc
    have e1l : b'.left = (updLR side z.inline (c.left, c.right)).1 :=
      congrArg Prod.fst hpair
    have e1r : b'.right = (updLR side z.inline (c.left, c.right)).2 :=
      congrArg Prod.snd hpair
    have hle : (updLR side z.inline (c.left, c.right)).1 ≤ c.left ∧
        (updLR side z.inline (c.left, c.right)).2 ≤ c.right :=
      updLR_le side z.inline (c.left, c.right)
    constructor
    · intro hs
      have h1 := hcp.1 hs
      omega
    · intro hs
      have h1 := hcp.2 hs
      omega
  · push_neg at hyc
    obtain ⟨c, hc, hl, hr⟩ := (exclude_spec hInv hzi hzb hx).2.2.1 y b' hyc hb'
    have hcp := hp y c hy0 hy hc
    constructor
    · intro hs
      rw [hl]
      exact hcp.1 hs
    · intro hs
      rw [hr]
      exact hcp.2 hs

lemma cover_new {W : Int} {e e' : Exclusions} {side : Side} {z : Size}
    (hInv : Inv e) (hzi : 0 ≤ z.inline) (hzb : 0 ≤ z.block)
    (hx : e.exclude side z = some e') {a : ExcludedArea}
    (hside : a.exclusion.side = side)
    (hbot : a.origin.block + a.exclusion.size.block = z.block)
    (hL : side = Side.Left → a.origin.inline + a.exclusion.size.inline = z.inline)
    (hR : side = Side.Right → a.origin.inline = W - z.inline) :
    Cover W e' a := by
  intro y b' hy0 hy hb'
  rw [hbot] at hy
  obtain ⟨c, hc, hpair⟩ := (exclude_spec hInv hzi hzb hx).2.2.2.1 y b' hy0 hy hb'
  constructor
  · intro hs
    have hsl : side = Side.Left := by rw [← hside]; exact hs
    subst hsl
    have e1l : b'.left = (updLR Side.Left z.inline (c.left, c.right)).1 :=
      congrArg Prod.fst hpair
    have hble : b'.left ≤ -z.inline := by
      rw [e1l]
      exact min_le_right _ _
    have hzeq := hL rfl
    omega
  · intro hs
    have hsr : side = Side.Right := by rw [← hside]; exact hs
    subst hsr
    have e1r : b'.right = (updLR Side.Right z.inline (c.left, c.right)).2 :=
      congrArg Prod.snd hpair
    have hbre : b'.right ≤ -z.inline := by
      rw [e1r]
      exact min_le_right _ _
    have hzeq := hR rfl
    omega

lemma no_overlap_new {W : Int} {e : Exclusions} (hInv : Inv e)
    {k : Int} {b : Band} (hmem : (k, b) ∈ e.bands) {a : ExcludedArea}
    (hoblock : a.origin.block = k)
    (hfit : a.exclusion.size.inline ≤ W + b.left + b.right)
    (hoiL : a.exclusion.side = Side.Left → a.origin.inline = -b.left)
    (hoiR : a.exclusion.side = Side.Right →
      a.origin.inline = W + b.right - a.exclusion.size.inline)
    {p : ExcludedArea} (hp : Cover W e p) : ¬ overlaps p a := by
  intro hov
  obtain ⟨ho1, ho2, ho3, ho4⟩ := hov
  have hk0 : 0 ≤ k := (contigSeg_mem_bounds hInv.1 hInv.2.1 hmem).1
  rw [hoblock] at ho4
  have hbat : bandAt e.bands k = some b := bandAt_key hInv.1 hInv.2.1 hmem
  have hcp := hp k b hk0 ho4 hbat
  cases hps : p.exclusion.side
  · have hcpl := hcp.1 hps
    cases has : a.exclusion.side
    · have hoi := hoiL has
      omega
    · have hoi := hoiR has
      omega
  · have hcpr := hcp.2 hps
    cases has : a.exclusion.side
    · have hoi := hoiL has
      omega
    · have hoi := hoiR has
      omega

lemma place_fit {e : Exclusions} (hInv : Inv e) {side : Side} {sz : Size} {pl : Placement}
    (hszW : sz.inline ≤ e.inline_size) (hpl : e.place side sz = some pl) :
    ∃ k b, (k, b) ∈ e.bands ∧ pl.origin.block = k ∧
      sz.inline ≤ b.available_size e.inline_size ∧
      pl.origin.inline = (match side with
        | Side.Left => -b.left
        | Side.Right => e.inline_size + b.right - sz.inline) := by
  obtain ⟨hc, hp, _, _, hz⟩ := hInv
  have hr := contig_ranges hc hp
  unfold Exclusions.place at hpl
  cases hlb : SplayMap.lower_bound_with (fun band_block_start band =>
      compare_inline_size band_block_start band sz e.inline_size) e.bands with
  | none =>
    rw [hlb] at hpl
    exact Option.noConfusion hpl
  | some x0 =>
    obtain ⟨k0, b0⟩ := x0
    rw [hlb] at hpl
    dsimp only at hpl
    cases hget : SplayMap.get e.bands k0 with
    | none =>
      rw [hget] at hpl
      exact Option.noConfusion hpl
    | some band =>
      rw [hget] at hpl
      dsimp only at hpl
      have hple := Option.some.inj hpl
      have hfind' : e.bands.find? (fun kb =>
          match compare_inline_size kb.1 kb.2 sz e.inline_size with
          | Ordering.gt => false | _ => true) = some (k0, b0) := hlb
      have hmem0 : (k0, b0) ∈ e.bands := List.mem_of_find?_eq_some hfind'
      have hptrue := List.find?_some hfind'
      have hget' : (e.bands.find? (fun kb => kb.1 == k0)).map Prod.snd = some band := hget
      obtain ⟨y, hy, hymap⟩ := Option.map_eq_some'.mp hget'
      have hymem := List.mem_of_find?_eq_some hy
      have hykey := List.find?_some hy
      simp only [beq_iff_eq] at hykey
      have hmemb : (k0, band) ∈ e.bands := by
        rw [← hykey, ← hymap]
        exact hymem
      have hband : band = b0 := key_unique hr hp hmemb hmem0
      have hfit : sz.inline ≤ band.available_size e.inline_size := by
        rcases cis_not_gt.mp hptrue with hfi | hsent
        · rw [hband]
          exact hfi
        · rw [hband]
          have hsent' : k0 + b0.length = MAX_AU := hsent
          cases hbl : e.bands.getLast? with
          | none =>
            rw [List.getLast?_eq_none] at hbl
            rw [hbl] at hmem0
            cases hmem0
          | some zlast =>
            have hzmem := List.mem_of_mem_getLast? hbl
            have hzend := contig_last hc zlast hbl
            have hzlr := hz zlast hbl
            obtain ⟨zk, zb⟩ := zlast
            have hzlr' : zb.left = 0 ∧ zb.right = 0 := hzlr
            have hzend' : zk + zb.length = MAX_AU := hzend
            rcases lt_trichotomy k0 zk with hlt | heq | hgt
            · exfalso
              have h5 : k0 + b0.length ≤ zk := pairwise_at_keys hr hr hp hmem0 hzmem hlt
              have hzp : (0 : Int) < zb.length := hp (zk, zb) hzmem
              omega
            · subst heq
              have hbz : b0 = zb := key_unique hr hp hmem0 hzmem
              show sz.inline ≤ e.inline_size + b0.left + b0.right
              rw [hbz, hzlr'.1, hzlr'.2]
              omega
            · exfalso
              have h5 : zk + zb.length ≤ k0 := pairwise_at_keys hr hr hp hzmem hmem0 hgt
              have hb0p : (0 : Int) < b0.length := hp (k0, b0) hmem0
              have h6 : k0 + b0.length ≤ MAX_AU := (contigSeg_mem_bounds hc hp hmem0).2
              omega
      subst hple
      refine ⟨k0, band, hmemb, rfl, hfit, ?_⟩
      cases side
      · rfl
      · rfl

lemma step_spec {W : Int} {e : Exclusions} {x : Exclusion} {a : ExcludedArea}
    {e' : Exclusions} (hW : 0 ≤ W) (hInv : Inv e) (hw : e.inline_size = W)
    (hx1 : 0 ≤ x.size.inline) (hx2 : 0 ≤ x.size.block)
    (hstep : driverStep W e x = some (a, e')) :
    Inv e' ∧ e'.inline_size = W ∧ Cover W e' a ∧
      ∀ p, Cover W e p → Cover W e' p ∧ ¬ overlaps p a := by
  obtain ⟨side, sz⟩ := x
  have hx1' : 0 ≤ sz.inline := hx1
  have hx2' : 0 ≤ sz.block := hx2
  have hci : 0 ≤ min sz.inline W := le_min hx1' hW
  cases side
  · -- a left float
    unfold driverStep at hstep
    dsimp only at hstep
    cases hplace : e.place Side.Left ⟨min sz.inline W, sz.block⟩ with
    | none =>
      rw [hplace] at hstep
      exact Option.noConfusion hstep
    | some pl =>
      rw [hplace] at hstep
      dsimp only at hstep
      cases hexc : e.exclude Side.Left ⟨pl.origin.inline + min sz.inline W,
          pl.origin.block + sz.block⟩ with
      | none =>
        rw [hexc] at hstep
        exact Option.noConfusion hstep
      | some e2 =>
        rw [hexc] at hstep
        dsimp only at hstep
        have hae := Option.some.inj hstep
        injection hae with ha he2
        subst ha
        subst he2
        obtain ⟨k, b, hmem, hoblock, hfit, hoi⟩ :=
          place_fit hInv (by rw [hw]; exact min_le_right _ _) hplace
        have hoi' : pl.origin.inline = -b.left := hoi
        have hbn : b.left ≤ 0 ∧ b.right ≤ 0 := hInv.2.2.1 (k, b) hmem
        have hk0 : 0 ≤ k := (contigSeg_mem_bounds hInv.1 hInv.2.1 hmem).1
        have hzi : 0 ≤ pl.origin.inline + min sz.inline W := by omega
        have hzb : 0 ≤ pl.origin.block + sz.block := by omega
        obtain ⟨hInv', hweq, _, _, _⟩ := exclude_spec hInv hzi hzb hexc
        have hfitW : min sz.inline W ≤ W + b.left + b.right := by
          have h9 : min sz.inline W ≤ e.inline_size + b.left + b.right := hfit
          omega
        refine ⟨hInv', by rw [hweq, hw], ?_, ?_⟩
        · exact cover_new hInv hzi hzb hexc rfl rfl (fun _ => rfl)
            (fun hcon => Side.noConfusion hcon)
        · intro p hp
          refine ⟨cover_preserved hInv hzi hzb hexc hp, ?_⟩
          exact no_overlap_new hInv hmem hoblock hfitW
            (fun _ => hoi') (fun hcon => Side.noConfusion hcon) hp
  · -- a right float
    unfold driverStep at hstep
    dsimp only at hstep
    cases hplace : e.place Side.Right ⟨min sz.inline W, sz.block⟩ with
    | none =>
      rw [hplace] at hstep
      exact Option.noConfusion hstep
    | some pl =>
      rw [hplace] at hstep
      dsimp only at hstep
      cases hexc : e.exclude Side.Right ⟨W - pl.origin.inline,
          pl.origin.block + sz.block⟩ with
      | none =>
        rw [hexc] at hstep
        exact Option.noConfusion hstep
      | some e2 =>
        rw [hexc] at hstep
        dsimp only at hstep
        have hae := Option.some.inj hstep
        injection hae with ha he2
        subst ha
        subst he2
        obtain ⟨k, b, hmem, hoblock, hfit, hoi⟩ :=
          place_fit hInv (by rw [hw]; exact min_le_right _ _) hplace
        have hoi' : pl.origin.inline = e.inline_size + b.right - min sz.inline W := hoi
        rw [hw] at hoi'
        have hbn : b.left ≤ 0 ∧ b.right ≤ 0 := hInv.2.2.1 (k, b) hmem
        have hk0 : 0 ≤ k := (contigSeg_mem_bounds hInv.1 hInv.2.1 hmem).1
        have hzi : 0 ≤ W - pl.origin.inline := by omega
        have hzb : 0 ≤ pl.origin.block + sz.block := by omega
        obtain ⟨hInv', hweq, _, _, _⟩ := exclude_spec hInv hzi hzb hexc
        have hfitW : min sz.inline W ≤ W + b.left + b.right := by
          have h9 : min sz.inline W ≤ e.inline_size + b.left + b.right := hfit
          omega
        refine ⟨hInv', by rw [hweq, hw], ?_, ?_⟩
        · exact cover_new hInv hzi hzb hexc rfl rfl (fun hcon => Side.noConfusion hcon)
            (fun _ => by show pl.origin.inline = W - (W - pl.origin.inline); omega)
        · intro p hp
          refine ⟨cover_preserved hInv hzi hzb hexc hp, ?_⟩
          exact no_overlap_new hInv hmem hoblock hfitW
            (fun hcon => Side.noConfusion hcon) (fun _ => hoi') hp

lemma run_lemma {W : Int} (hW : 0 ≤ W) : ∀ (xs : List Exclusion) (e : Exclusions)
    (prev areas : List ExcludedArea) (efin : Exclusions),
    Inv e → e.inline_size = W →
    (∀ x ∈ xs, 0 ≤ x.size.inline ∧ 0 ≤ x.size.block) →
    (∀ p ∈ prev, Cover W e p) →
    place_all W e xs = some (areas, efin) →
    (∀ p ∈ prev, ∀ r ∈ areas, ¬ overlaps p r) ∧
      areas.Pairwise (fun a c => ¬ overlaps a c) := by
  intro xs
  induction xs with
  | nil =>
    intro e prev areas efin hInv hw hxs hprev hrun
    have h1 : (([], e) : List ExcludedArea × Exclusions) = (areas, efin) :=
      Option.some.inj hrun
    injection h1 with h2 h3
    subst h2
    exact ⟨fun p hp r hr => absurd hr (List.not_mem_nil _), List.Pairwise.nil⟩
  | cons x xs ih =>
    intro e prev areas efin hInv hw hxs hprev hrun
    simp only [place_all] at hrun
    cases hstep : driverStep W e x with
    | none =>
      rw [hstep] at hrun
      exact Option.noConfusion hrun
    | some pr =>
      obtain ⟨a, e'⟩ := pr
      rw [hstep] at hrun
      dsimp only at hrun
      cases hrest : place_all W e' xs with
      | none =>
        rw [hrest] at hrun
        exact Option.noConfusion hrun
      | some pr2 =>
        obtain ⟨rest, efin2⟩ := pr2
        rw [hrest] at hrun
        dsimp only at hrun
        have h1 := Option.some.inj hrun
        injection h1 with h2 h3
        subst h2
        obtain ⟨hInv', hw', hCovA, hTransfer⟩ :=
          step_spec hW hInv hw (hxs x (List.mem_cons_self _ _)).1
            (hxs x (List.mem_cons_self _ _)).2 hstep
        have hprev' : ∀ p ∈ a :: prev, Cover W e' p := by
          intro p hp
          rcases List.mem_cons.mp hp with rfl | hp'
          · exact hCovA
          · exact (hTransfer p (hprev p hp')).1
        obtain ⟨hcross, hpair⟩ := ih e' (a :: prev) rest efin2 hInv' hw'
          (fun q hq => hxs q (List.mem_cons_of_mem _ hq)) hprev' hrest
        constructor
        · intro p hp r hr
          rcases List.mem_cons.mp hr with rfl | hr'
          · exact (hTransfer p (hprev p hp)).2
          · exact hcross p (List.mem_cons_of_mem _ hp) r hr'
        · refine List.Pairwise.cons ?_ hpair
          intro r hr
          exact hcross a (List.mem_cons_self _ _) r hr

/-- C1: for every driver run of `place_all` with zone width `W ≥ 0` over any
finite sequence of exclusions with non-negative sizes (the inline size
clamped to `min` with `W` before placing), any two of the placed rectangles
`[origin, origin + size)` are disjoint: no pair intersects in both the
inline and the block axis simultaneously. -/
theorem place_all_no_overlap {W : Int} (hW : 0 ≤ W) {xs : List Exclusion}
    (hxs : ∀ x ∈ xs, 0 ≤ x.size.inline ∧ 0 ≤ x.size.block)
    {areas : List ExcludedArea} {efin : Exclusions}
    (hrun : place_all W (Exclusions.new W) xs = some (areas, efin)) :
    areas.Pairwise (fun a c => ¬ overlaps a c) :=
  (run_lemma hW xs (Exclusions.new W) [] areas efin (inv_new W) rfl hxs
    (fun p hp => absurd hp (List.not_mem_nil _)) hrun).2

/-- Witness for C1 on the three-right-float run of scenario S6. -/
theorem place_all_no_overlap_witness :
    List.Pairwise (fun a c => ¬ overlaps a c)
      [(⟨⟨Side.Right, ⟨50, 10⟩⟩, ⟨50, 0⟩⟩ : ExcludedArea),
       ⟨⟨Side.Right, ⟨50, 10⟩⟩, ⟨0, 0⟩⟩,
       ⟨⟨Side.Right, ⟨50, 10⟩⟩, ⟨50, 10⟩⟩] :=
  place_all_no_overlap (show (0 : Int) ≤ 100 by decide)
    (show ∀ x ∈ [(⟨Side.Right, ⟨50, 10⟩⟩ : Exclusion), ⟨Side.Right, ⟨50, 10⟩⟩,
        ⟨Side.Right, ⟨50, 10⟩⟩], 0 ≤ x.size.inline ∧ 0 ≤ x.size.block by decide)
    (show place_all 100 (Exclusions.new 100)
        [⟨Side.Right, ⟨50, 10⟩⟩, ⟨Side.Right, ⟨50, 10⟩⟩, ⟨Side.Right, ⟨50, 10⟩⟩]
      = some ([⟨⟨Side.Right, ⟨50, 10⟩⟩, ⟨50, 0⟩⟩,
               ⟨⟨Side.Right, ⟨50, 10⟩⟩, ⟨0, 0⟩⟩,
               ⟨⟨Side.Right, ⟨50, 10⟩⟩, ⟨50, 10⟩⟩],
              ⟨[(0, ⟨0, -100, 10⟩), (10, ⟨0, -50, 10⟩),
                (20, ⟨0, 0, 2147483627⟩)], 100⟩)
      by decide)

/-- C8: if `size.inline = 0` or `size.block = 0`, `exclude` is a no-op: the
returned state is the argument itself, so `inline_size` and every
key-to-band binding are unchanged. -/

theorem exclude_zero_is_noop (e : Exclusions) (side : Side) (size : Size)
    (h : size.inline = 0 ∨ size.block = 0) : e.exclude side size = some e := by
  unfold Exclusions.exclude
  rw [if_pos h]

/-- Witness for C8 at a concrete state and size. -/
theorem exclude_zero_is_noop_witness :
    (Exclusions.new 100).exclude Side.Left ⟨0, 5⟩ = some (Exclusions.new 100) :=
  exclude_zero_is_noop (Exclusions.new 100) Side.Left ⟨0, 5⟩ (Or.inl rfl)

/-- C9: `place` never alters the silhouette: in the state-transformer view
the band store and the zone width after the call are exactly those before it
(the source mutates only the splay tree's shape, which is below the
key-to-value content this model records). -/
theorem place_preserves_silhouette (e : Exclusions) (side : Side) (size : Size) :
    (e.placeMut side size).2.bands = e.bands ∧
      (e.placeMut side size).2.inline_size = e.inline_size :=
  ⟨rfl, rfl⟩

/-- C5: whenever `place` has selected the band at block position `bp` with
insets `(L, R)`, the placement it returns is
`origin.inline = -L` (left) / `W + R - size.inline` (right),
`origin.block = bp`, and `available_inline_size = W + L + R`. -/
theorem place_formulas (e : Exclusions) (side : Side) (size : Size) (bp : Int) (band : Band)
    (h1 : SplayMap.lower_bound_with
      (fun band_block_start band =>
        compare_inline_size band_block_start band size e.inline_size) e.bands
        = some (bp, band))
    (h2 : SplayMap.get e.bands bp = some band) :
    ∃ pl, e.place side size = some pl ∧
      pl.origin.block = bp ∧
      pl.available_inline_size = e.inline_size + band.left + band.right ∧
      (side = Side.Left → pl.origin.inline = -band.left) ∧
      (side = Side.Right → pl.origin.inline = e.inline_size + band.right - size.inline) := by
  unfold Exclusions.place
  rw [h1]
  dsimp only
  rw [h2]
  cases side
  · refine ⟨_, rfl, rfl, rfl, fun _ => rfl, fun h => ?_⟩
    cases h
  · refine ⟨_, rfl, rfl, rfl, fun h => ?_, fun _ => rfl⟩
    cases h

/-- Witness for C5 on the fresh zone of width 100 with a right float. -/
theorem place_formulas_witness :
    ∃ pl, (Exclusions.new 100).place Side.Right ⟨50, 10⟩ = some pl ∧
      pl.origin.block = 0 ∧
      pl.available_inline_size = (Exclusions.new 100).inline_size + (0 : Int) + (0 : Int) ∧
      (Side.Right = Side.Left → pl.origin.inline = -(0 : Int)) ∧
      (Side.Right = Side.Right →
        pl.origin.inline = (Exclusions.new 100).inline_size + (0 : Int) - (50 : Int)) :=
  place_formulas (Exclusions.new 100) Side.Right ⟨50, 10⟩ 0 ⟨0, 0, MAX_AU⟩
    (by decide) (by decide)

/-- C4 (counterexample): on `W = 100` and three `(Right, 50×10)` exclusions
the driver does not return the origins `(50,0), (50,10), (50,20)` claimed by
scenario S6: the available size of the top band after the first exclusion is
exactly 50, and the fit comparator treats an exact fit as fitting, so the
second float is placed beside the first at `(0, 0)`. -/
theorem s6_origins_not_as_specified :
    (place_all 100 (Exclusions.new 100)
        [⟨Side.Right, ⟨50, 10⟩⟩, ⟨Side.Right, ⟨50, 10⟩⟩, ⟨Side.Right, ⟨50, 10⟩⟩]).map
      (fun p => p.1.map (fun a => (a.origin.inline, a.origin.block)))
      ≠ some [(50, 0), (50, 10), (50, 20)] := by decide

/-- C4 (amended): the driver run on `W = 100`,
`[(Right,50×10), (Right,50×10), (Right,50×10)]` returns the origins
`(50,0), (0,0), (50,10)` in that order, and afterwards the band store is
`{0: (0,-100,10), 10: (0,-50,10), 20: (0,0,MAX-20)}` (the last band being
the sentinel). -/
theorem s6_run_result :
    place_all 100 (Exclusions.new 100)
        [⟨Side.Right, ⟨50, 10⟩⟩, ⟨Side.Right, ⟨50, 10⟩⟩, ⟨Side.Right, ⟨50, 10⟩⟩]
      = some ([⟨⟨Side.Right, ⟨50, 10⟩⟩, ⟨50, 0⟩⟩,
               ⟨⟨Side.Right, ⟨50, 10⟩⟩, ⟨0, 0⟩⟩,
               ⟨⟨Side.Right, ⟨50, 10⟩⟩, ⟨50, 10⟩⟩],
              ⟨[(0, ⟨0, -100, 10⟩), (10, ⟨0, -50, 10⟩), (20, ⟨0, 0, 2147483627⟩)], 100⟩) := by
  decide

end Buoyancy
